import Mathlib

/-!
Verification development for the `ripdoc` PDF-extraction core.

The definitions below are shallow embeddings of the Rust sources under
`crates/ripdoc-core/src/`.  Numeric fields that the Rust code stores as
`f64` are modelled as exact rationals (`ℚ`) for the purely arithmetic
components (geometry, page filtering, table detection) and as real numbers
(`ℝ`) for the content-stream interpreter, whose effective font size uses a
square root.  Reference-counted colour handles (`Arc<Option<Color>>`) are
modelled as plain `Option` values; hash maps are modelled as association
lists looked up by key.
-/

namespace PDF

/-- Embeds `geometry/bbox.rs` `BBox`: a bounding box in top-left page
coordinates. -/
structure BBox where
  x0 : ℚ
  top : ℚ
  x1 : ℚ
  bottom : ℚ
deriving DecidableEq, Repr

/-- Embeds `BBox::new`. -/
def BBox.new (x0 top x1 bottom : ℚ) : BBox := ⟨x0, top, x1, bottom⟩

/-- Embeds `BBox::width`. -/
def BBox.width (b : BBox) : ℚ := b.x1 - b.x0

/-- Embeds `BBox::height`. -/
def BBox.height (b : BBox) : ℚ := b.bottom - b.top

/-- Embeds `BBox::contains_point`. -/
def BBox.contains_point (b : BBox) (x y : ℚ) : Prop :=
  x ≥ b.x0 ∧ x ≤ b.x1 ∧ y ≥ b.top ∧ y ≤ b.bottom

instance (b : BBox) (x y : ℚ) : Decidable (b.contains_point x y) := by
  unfold BBox.contains_point; infer_instance

/-- Embeds `BBox::intersects`. -/
def BBox.intersects (b other : BBox) : Prop :=
  b.x0 < other.x1 ∧ b.x1 > other.x0 ∧ b.top < other.bottom ∧ b.bottom > other.top

instance (b o : BBox) : Decidable (b.intersects o) := by
  unfold BBox.intersects; infer_instance

/-- Embeds `BBox::contains_bbox`. -/
def BBox.contains_bbox (b other : BBox) : Prop :=
  b.x0 ≤ other.x0 ∧ b.x1 ≥ other.x1 ∧ b.top ≤ other.top ∧ b.bottom ≥ other.bottom

instance (b o : BBox) : Decidable (b.contains_bbox o) := by
  unfold BBox.contains_bbox; infer_instance

/-- Embeds `BBox::default`. -/
def BBox.default : BBox := ⟨0, 0, 0, 0⟩

/-- Embeds `BBox::union`. -/
def BBox.union (b other : BBox) : BBox :=
  ⟨min b.x0 other.x0, min b.top other.top, max b.x1 other.x1, max b.bottom other.bottom⟩

/-- Embeds `objects.rs` `Char` (geometry and text attributes; the shared
colour handles and the stored rendering matrix are not consulted by the
page-filtering and table operations modelled here and are omitted). -/
structure Char where
  text : String
  fontname : String
  size : ℚ
  x0 : ℚ
  x1 : ℚ
  top : ℚ
  bottom : ℚ
  doctop : ℚ
  upright : Bool
deriving DecidableEq, Repr

/-- Embeds `Char::bbox`. -/
def Char.bbox (c : Char) : BBox := BBox.new c.x0 c.top c.x1 c.bottom

/-- Embeds `objects.rs` `Line` (colour handles omitted). -/
structure Line where
  x0 : ℚ
  y0 : ℚ
  x1 : ℚ
  y1 : ℚ
  top : ℚ
  bottom : ℚ
  width : ℚ
deriving DecidableEq, Repr

/-- Embeds `Line::bbox`. -/
def Line.bbox (l : Line) : BBox :=
  BBox.new (min l.x0 l.x1) l.top (max l.x0 l.x1) l.bottom

/-- Embeds `Line::is_horizontal` (tolerance 1e-6 on the y-delta). -/
def Line.is_horizontal (l : Line) : Prop := |l.y0 - l.y1| < 1 / 1000000

instance (l : Line) : Decidable l.is_horizontal := by
  unfold Line.is_horizontal; infer_instance

/-- Embeds `Line::is_vertical` (tolerance 1e-6 on the x-delta). -/
def Line.is_vertical (l : Line) : Prop := |l.x0 - l.x1| < 1 / 1000000

instance (l : Line) : Decidable l.is_vertical := by
  unfold Line.is_vertical; infer_instance

/-- Embeds `objects.rs` `Rect` (colour handles omitted). -/
structure Rect where
  x0 : ℚ
  top : ℚ
  x1 : ℚ
  bottom : ℚ
  width : ℚ
  height : ℚ
  linewidth : ℚ
deriving DecidableEq, Repr

/-- Embeds `Rect::bbox`. -/
def Rect.bbox (r : Rect) : BBox := BBox.new r.x0 r.top r.x1 r.bottom

/-- Embeds `objects.rs` `Curve` (colour handles omitted). -/
structure Curve where
  points : List (ℚ × ℚ)
  width : ℚ
deriving DecidableEq, Repr

/-- Embeds `Curve::bbox`: the Rust folds `min`/`max` over all points
starting from the `f64::MAX`/`f64::MIN` sentinels, which for a non-empty
point list is the fold from the first point; the empty list returns the
default bbox. -/
def Curve.bbox (c : Curve) : BBox :=
  match c.points with
  | [] => BBox.default
  | p :: ps =>
    ps.foldl (fun acc q =>
        BBox.new (min acc.x0 q.1) (min acc.top q.2) (max acc.x1 q.1) (max acc.bottom q.2))
      (BBox.new p.1 p.2 p.1 p.2)

/-- Embeds `objects.rs` `Word`. -/
structure Word where
  text : String
  x0 : ℚ
  x1 : ℚ
  top : ℚ
  bottom : ℚ
  doctop : ℚ
  upright : Bool
  fontname : String
  size : ℚ
deriving DecidableEq, Repr

/-- Embeds `page.rs` `Page`. -/
structure Page where
  page_number : Nat
  width : ℚ
  height : ℚ
  doctop_offset : ℚ
  chars : List Char
  lines : List Line
  rects : List Rect
  curves : List Curve
deriving DecidableEq, Repr

/-- Embeds `Page::new`. -/
def Page.new (page_number : Nat) (width height doctop_offset : ℚ) : Page :=
  ⟨page_number, width, height, doctop_offset, [], [], [], []⟩

/-- Embeds `Page::crop`: chars are kept when either the `(x0, top)` or the
`(x1, bottom)` corner lies inside the bbox; lines, rects and curves are
kept when their bbox intersects it. -/
def Page.crop (p : Page) (bbox : BBox) : Page :=
  { Page.new p.page_number bbox.width bbox.height p.doctop_offset with
    chars := p.chars.filter fun c =>
      decide (bbox.contains_point c.x0 c.top) || decide (bbox.contains_point c.x1 c.bottom)
    lines := p.lines.filter fun l => decide (bbox.intersects l.bbox)
    rects := p.rects.filter fun r => decide (bbox.intersects r.bbox)
    curves := p.curves.filter fun c => decide (bbox.intersects c.bbox) }

/-- Embeds `Page::within_bbox`: every primitive kind is kept exactly when
its bbox is fully contained in the given bbox. -/
def Page.within_bbox (p : Page) (bbox : BBox) : Page :=
  { Page.new p.page_number bbox.width bbox.height p.doctop_offset with
    chars := p.chars.filter fun c => decide (bbox.contains_bbox c.bbox)
    lines := p.lines.filter fun l => decide (bbox.contains_bbox l.bbox)
    rects := p.rects.filter fun r => decide (bbox.contains_bbox r.bbox)
    curves := p.curves.filter fun c => decide (bbox.contains_bbox c.bbox) }

/-- Embeds `geometry/lines.rs` `Orientation`. -/
inductive Orientation where
  | Horizontal
  | Vertical
deriving DecidableEq, Repr

/-- Embeds `geometry/lines.rs` `Edge`. -/
structure Edge where
  x0 : ℚ
  top : ℚ
  x1 : ℚ
  bottom : ℚ
  width : ℚ
  orientation : Orientation
deriving DecidableEq, Repr

/-- Embeds `Edge::new`: the orientation is chosen by comparing the spans. -/
def Edge.new (x0 top x1 bottom width : ℚ) : Edge :=
  { x0 := x0, top := top, x1 := x1, bottom := bottom, width := width,
    orientation :=
      if |top - bottom| < |x1 - x0| then Orientation.Horizontal else Orientation.Vertical }

/-- Embeds `Edge::horizontal`. -/
def Edge.horizontal (x0 x1 y width : ℚ) : Edge :=
  { x0 := min x0 x1, top := y, x1 := max x0 x1, bottom := y, width := width,
    orientation := Orientation.Horizontal }

/-- Embeds `Edge::vertical`. -/
def Edge.vertical (x top bottom width : ℚ) : Edge :=
  { x0 := x, top := min top bottom, x1 := x, bottom := max top bottom, width := width,
    orientation := Orientation.Vertical }

/-- Embeds `Edge::length`. -/
def Edge.length (e : Edge) : ℚ :=
  match e.orientation with
  | Orientation.Horizontal => |e.x1 - e.x0|
  | Orientation.Vertical => |e.bottom - e.top|

/-- Embeds `Edge::is_horizontal`. -/
def Edge.is_horizontal (e : Edge) : Bool := e.orientation = Orientation.Horizontal

/-- Embeds `Edge::is_vertical`. -/
def Edge.is_vertical (e : Edge) : Bool := e.orientation = Orientation.Vertical

/-- The body of the snapping loop in `snap_edges` over an index-tagged,
already sorted run of edges, carrying the current anchor value `base`:
every edge whose key is within `tol` of the anchor is rewritten by `upd`
to the anchor value (the anchor itself, where the Rust loop starts
mutating at `j = i + 1`, is left untouched), and the first edge beyond the
tolerance becomes the new anchor. -/
def snapRunGo (tol : ℚ) (key : Edge → ℚ) (upd : Edge → ℚ → Edge) (base : ℚ) :
    List (Nat × Edge) → List (Nat × Edge)
  | [] => []
  | p :: rest =>
    if |key p.2 - base| ≤ tol then (p.1, upd p.2 base) :: snapRunGo tol key upd base rest
    else p :: snapRunGo tol key upd (key p.2) rest

/-- One pass of the snapping loop of `snap_edges`: the first edge is the
first anchor and is left untouched. -/
def snapRun (tol : ℚ) (key : Edge → ℚ) (upd : Edge → ℚ → Edge) :
    List (Nat × Edge) → List (Nat × Edge)
  | [] => []
  | p :: rest => p :: snapRunGo tol key upd (key p.2) rest

/-- The field update applied to snapped horizontal edges
(`h_edges[j].top = base_y; h_edges[j].bottom = base_y`). -/
def snapUpdH (e : Edge) (base : ℚ) : Edge := { e with top := base, bottom := base }

/-- The field update applied to snapped vertical edges
(`v_edges[j].x0 = base_x; v_edges[j].x1 = base_x`). -/
def snapUpdV (e : Edge) (base : ℚ) : Edge := { e with x0 := base, x1 := base }

/-- Embeds `geometry/lines.rs` `snap_edges`.  The Rust function sorts
mutable references to the horizontal (resp. vertical) edges by `top`
(resp. `x0`) with a stable sort, runs the snapping loop over that sorted
sequence, and the mutations land back in the original vector positions.
This is modelled by tagging each edge with its index, sorting stably,
snapping the sorted runs, and writing the snapped edges back by index. -/
def snap_edges (x_tolerance y_tolerance : ℚ) (edges : List Edge) : List Edge :=
  let idx := edges.enum
  let hSnapped :=
    snapRun y_tolerance (fun e => e.top) snapUpdH
      ((idx.filter fun p => p.2.is_horizontal).insertionSort
        fun a b => a.2.top ≤ b.2.top)
  let vSnapped :=
    snapRun x_tolerance (fun e => e.x0) snapUpdV
      ((idx.filter fun p => p.2.is_vertical).insertionSort
        fun a b => a.2.x0 ≤ b.2.x0)
  idx.map fun p => ((hSnapped ++ vSnapped).lookup p.1).getD p.2

/-- One merge step of `merge_collinear_edges`: the accumulator carries the
already finished edges and the edge currently being extended. -/
def mergeStep (tolerance : ℚ) (horizontal : Bool) (acc : List Edge × Edge) (edge : Edge) :
    List Edge × Edge :=
  let last := acc.2
  let same_line :=
    if horizontal then |last.top - edge.top| ≤ tolerance else |last.x0 - edge.x0| ≤ tolerance
  let overlaps :=
    if horizontal then edge.x0 ≤ last.x1 + tolerance else edge.top ≤ last.bottom + tolerance
  if same_line ∧ overlaps then
    (acc.1,
      if horizontal then
        { last with x1 := max last.x1 edge.x1, width := max last.width edge.width }
      else
        { last with bottom := max last.bottom edge.bottom, width := max last.width edge.width })
  else (acc.1 ++ [last], edge)

/-- Embeds `merge_collinear_edges`: sort (by constant coordinate then start
coordinate), then walk merging successive collinear overlapping edges. -/
def merge_collinear_edges (tolerance : ℚ) (horizontal : Bool) (edges : List Edge) : List Edge :=
  let sorted :=
    if horizontal then
      edges.insertionSort fun a b =>
        a.top < b.top ∨ (a.top = b.top ∧ a.x0 ≤ b.x0)
    else
      edges.insertionSort fun a b =>
        a.x0 < b.x0 ∨ (a.x0 = b.x0 ∧ a.top ≤ b.top)
  match sorted with
  | [] => []
  | e :: rest =>
    let acc := rest.foldl (mergeStep tolerance horizontal) ([], e)
    acc.1 ++ [acc.2]

/-- Embeds `merge_edges`. -/
def merge_edges (tolerance : ℚ) (edges : List Edge) : List Edge :=
  merge_collinear_edges tolerance true (edges.filter fun e => e.is_horizontal) ++
    merge_collinear_edges tolerance false (edges.filter fun e => e.is_vertical)

/-- Embeds `dedup_points`: keep the first point, then keep each following
point that differs from the last kept one by more than a tolerance in
either coordinate. -/
def dedup_points (x_tol y_tol : ℚ) : List (ℚ × ℚ) → List (ℚ × ℚ)
  | [] => []
  | p :: ps => p :: go p ps
where
  go : ℚ × ℚ → List (ℚ × ℚ) → List (ℚ × ℚ)
  | _, [] => []
  | last, q :: qs =>
    if |q.1 - last.1| > x_tol ∨ |q.2 - last.2| > y_tol then q :: go q qs else go last qs

/-- Embeds `find_intersections`: pair every horizontal with every vertical,
keep the crossing when the ranges overlap within tolerance, sort by y then
x, and deduplicate within tolerance. -/
def find_intersections (x_tolerance y_tolerance : ℚ) (edges : List Edge) : List (ℚ × ℚ) :=
  let horizontals := edges.filter fun e => e.is_horizontal
  let verticals := edges.filter fun e => e.is_vertical
  let intersections := horizontals.flatMap fun h =>
    verticals.filterMap fun v =>
      if h.top ≥ v.top - y_tolerance ∧ h.top ≤ v.bottom + y_tolerance ∧
          v.x0 ≥ h.x0 - x_tolerance ∧ v.x0 ≤ h.x1 + x_tolerance then
        some (v.x0, h.top)
      else none
  dedup_points x_tolerance y_tolerance
    (intersections.insertionSort fun a b =>
      a.2 < b.2 ∨ (a.2 = b.2 ∧ a.1 ≤ b.1))

/-- Embeds `geometry/clustering.rs` `cluster_values`: sort the indexed
values, then chain-cluster indices whose value is within tolerance of the
last value added to the current cluster. -/
def cluster_values (tolerance : ℚ) (values : List ℚ) : List (List Nat) :=
  match values.enum.insertionSort (fun a b => a.2 ≤ b.2) with
  | [] => []
  | (i, _) :: rest =>
    let acc := rest.foldl
      (fun (acc : List (List Nat) × List Nat) p =>
        let lastIdx := acc.2.getLastD 0
        let lastVal := values.getD lastIdx 0
        if |p.2 - lastVal| ≤ tolerance then (acc.1, acc.2 ++ [p.1])
        else (acc.1 ++ [acc.2], [p.1]))
      ([], [i])
    acc.1 ++ [acc.2]

/-- Embeds `text/words.rs` `build_word`: drop whitespace characters,
concatenate texts, return `none` for an all-whitespace run, and take the
bounding box as the min/max fold over the remaining characters. -/
def build_word (chars : List Char) : Option Word :=
  match chars.filter fun c => !c.text.trim.isEmpty with
  | [] => none
  | c :: cs =>
    let text := String.join ((c :: cs).map fun ch => ch.text)
    if text.trim.isEmpty then none
    else
      some
        { text := text
          x0 := cs.foldl (fun a ch => min a ch.x0) c.x0
          x1 := cs.foldl (fun a ch => max a ch.x1) c.x1
          top := cs.foldl (fun a ch => min a ch.top) c.top
          bottom := cs.foldl (fun a ch => max a ch.bottom) c.bottom
          doctop := cs.foldl (fun a ch => min a ch.doctop) c.doctop
          upright := c.upright
          fontname := c.fontname
          size := c.size }

/-- Embeds `text/words.rs` `group_chars_to_words`: stable-sort characters
by top then x0, then walk grouping characters that stay on the same line,
sit within the x-tolerance of the previous character, and are not
whitespace. -/
def group_chars_to_words (x_tolerance y_tolerance : ℚ) (chars : List Char) : List Word :=
  match (chars.insertionSort fun a b =>
      a.top < b.top ∨ (a.top = b.top ∧ a.x0 ≤ b.x0)) with
  | [] => []
  | c :: rest =>
    let acc := rest.foldl
      (fun (acc : List Word × List Char) ch =>
        let last := acc.2.getLastD ch
        let is_space := ch.text.trim.isEmpty
        let same_line := |ch.top - last.top| ≤ y_tolerance
        let close_enough := |ch.x0 - last.x1| ≤ x_tolerance
        if same_line ∧ close_enough ∧ ¬ is_space then (acc.1, acc.2 ++ [ch])
        else
          (match build_word acc.2 with
            | some w => acc.1 ++ [w]
            | none => acc.1, [ch]))
      ([], [c])
    match build_word acc.2 with
    | some w => acc.1 ++ [w]
    | none => acc.1

/-- Embeds `Page::words`. -/
def Page.words (p : Page) (x_tolerance y_tolerance : ℚ) : List Word :=
  group_chars_to_words x_tolerance y_tolerance p.chars

/-- Embeds `table/settings.rs` `Strategy`. -/
inductive Strategy where
  | Lines
  | LinesStrict
  | Text
  | Explicit
deriving DecidableEq, Repr

/-- Embeds `table/settings.rs` `TableSettings`. -/
structure TableSettings where
  vertical_strategy : Strategy
  horizontal_strategy : Strategy
  snap_tolerance : ℚ
  snap_x_tolerance : Option ℚ
  snap_y_tolerance : Option ℚ
  join_tolerance : ℚ
  join_x_tolerance : Option ℚ
  join_y_tolerance : Option ℚ
  edge_min_length : ℚ
  min_words_vertical : Nat
  min_words_horizontal : Nat
  intersection_tolerance : ℚ
  intersection_x_tolerance : Option ℚ
  intersection_y_tolerance : Option ℚ
  text_tolerance : ℚ
  text_x_tolerance : Option ℚ
  text_y_tolerance : Option ℚ
  explicit_vertical_lines : List ℚ
  explicit_horizontal_lines : List ℚ
deriving DecidableEq, Repr

/-- Embeds `TableSettings::default`. -/
def TableSettings.default : TableSettings :=
  { vertical_strategy := Strategy.Lines
    horizontal_strategy := Strategy.Lines
    snap_tolerance := 3
    snap_x_tolerance := none
    snap_y_tolerance := none
    join_tolerance := 3
    join_x_tolerance := none
    join_y_tolerance := none
    edge_min_length := 3
    min_words_vertical := 3
    min_words_horizontal := 1
    intersection_tolerance := 3
    intersection_x_tolerance := none
    intersection_y_tolerance := none
    text_tolerance := 3
    text_x_tolerance := none
    text_y_tolerance := none
    explicit_vertical_lines := []
    explicit_horizontal_lines := [] }

/-- Embeds `TableSettings::snap_x`. -/
def TableSettings.snap_x (s : TableSettings) : ℚ := s.snap_x_tolerance.getD s.snap_tolerance

/-- Embeds `TableSettings::snap_y`. -/
def TableSettings.snap_y (s : TableSettings) : ℚ := s.snap_y_tolerance.getD s.snap_tolerance

/-- Embeds `TableSettings::join_x`. -/
def TableSettings.join_x (s : TableSettings) : ℚ := s.join_x_tolerance.getD s.join_tolerance

/-- Embeds `TableSettings::join_y`. -/
def TableSettings.join_y (s : TableSettings) : ℚ := s.join_y_tolerance.getD s.join_tolerance

/-- Embeds `TableSettings::intersection_x`. -/
def TableSettings.intersection_x (s : TableSettings) : ℚ :=
  s.intersection_x_tolerance.getD s.intersection_tolerance

/-- Embeds `TableSettings::intersection_y`. -/
def TableSettings.intersection_y (s : TableSettings) : ℚ :=
  s.intersection_y_tolerance.getD s.intersection_tolerance

/-- Embeds `TableSettings::text_x`. -/
def TableSettings.text_x (s : TableSettings) : ℚ := s.text_x_tolerance.getD s.text_tolerance

/-- Embeds `TableSettings::text_y`. -/
def TableSettings.text_y (s : TableSettings) : ℚ := s.text_y_tolerance.getD s.text_tolerance

/-- Embeds `table/mod.rs` `TableCell`. -/
structure TableCell where
  row : Nat
  col : Nat
  row_span : Nat
  col_span : Nat
  text : String
  bbox : BBox
deriving DecidableEq, Repr

/-- Embeds `table/mod.rs` `Table`. -/
structure Table where
  bbox : BBox
  cells : List TableCell
  row_count : Nat
  col_count : Nat
deriving DecidableEq, Repr

/-- Writes one grid slot: `grid[r][c] = v`. -/
def gridSet (g : List (List (Option String))) (r c : Nat) (v : Option String) :
    List (List (Option String)) :=
  g.set r ((g.getD r []).set c v)

/-- The optional grid entry written by `to_grid` for a cell: `None` for
empty text. -/
def cellTextOpt (cell : TableCell) : Option String :=
  if cell.text.isEmpty then none else some cell.text

/-- Grid slot lookup: `grid[r][c]`, `none` when out of range. -/
def gval (g : List (List (Option String))) (r c : Nat) : Option String :=
  (g.getD r []).getD c none

/-- A grid has `rc` rows of `cc` slots each. -/
def gdims (g : List (List (Option String))) (rc cc : Nat) : Prop :=
  g.length = rc ∧ ∀ row ∈ g, row.length = cc

/-- The per-cell fold step of `Table::to_grid`: skip out-of-range cells,
fill the spanned slots other than the cell's own top-left slot, then the
top-left slot; empty cell text becomes `None`. -/
def gridStep (rc cc : Nat) (grid : List (List (Option String))) (cell : TableCell) :
    List (List (Option String)) :=
  if cell.row < rc ∧ cell.col < cc then
    let text := cellTextOpt cell
    let spanned :=
      (List.range' cell.row (min (cell.row + cell.row_span) rc - cell.row)).flatMap
        fun r =>
          (List.range' cell.col (min (cell.col + cell.col_span) cc - cell.col)).map
            fun c => (r, c)
    let grid := spanned.foldl
      (fun g rc' =>
        if rc'.1 ≠ cell.row ∨ rc'.2 ≠ cell.col then gridSet g rc'.1 rc'.2 text else g)
      grid
    gridSet grid cell.row cell.col text
  else grid

/-- Embeds `Table::to_grid`: a `row_count × col_count` grid of `None`,
filled cell by cell in order. -/
def Table.to_grid (t : Table) : List (List (Option String)) :=
  t.cells.foldl (gridStep t.row_count t.col_count)
    (List.replicate t.row_count (List.replicate t.col_count (none : Option String)))

/-- Embeds `detect.rs` `infer_vertical_edges_from_text`. -/
def infer_vertical_edges_from_text (settings : TableSettings) (words : List Word) : List Edge :=
  match words with
  | [] => []
  | w :: ws =>
    let y_min := ws.foldl (fun a w' => min a w'.top) w.top
    let y_max := ws.foldl (fun a w' => max a w'.bottom) w.bottom
    let fromPositions := fun (positions : List ℚ) =>
      let sorted := positions.insertionSort (fun a b => a ≤ b)
      (cluster_values settings.text_x sorted).filterMap fun cluster =>
        if cluster.length ≥ settings.min_words_vertical then
          some (Edge.vertical
            ((cluster.map fun i => sorted.getD i 0).sum / cluster.length) y_min y_max (1 / 2))
        else none
    fromPositions ((w :: ws).map fun w' => w'.x0) ++
      fromPositions ((w :: ws).map fun w' => w'.x1)

/-- Embeds `detect.rs` `infer_horizontal_edges_from_text`. -/
def infer_horizontal_edges_from_text (settings : TableSettings) (words : List Word) : List Edge :=
  match words with
  | [] => []
  | w :: ws =>
    let x_min := ws.foldl (fun a w' => min a w'.x0) w.x0
    let x_max := ws.foldl (fun a w' => max a w'.x1) w.x1
    let fromPositions := fun (positions : List ℚ) =>
      let sorted := positions.insertionSort (fun a b => a ≤ b)
      (cluster_values settings.text_y sorted).filterMap fun cluster =>
        if cluster.length ≥ settings.min_words_horizontal then
          some (Edge.horizontal x_min x_max
            ((cluster.map fun i => sorted.getD i 0).sum / cluster.length) (1 / 2))
        else none
    fromPositions ((w :: ws).map fun w' => w'.top) ++
      fromPositions ((w :: ws).map fun w' => w'.bottom)

/-- Embeds `detect.rs` `collect_edges`. -/
def collect_edges (page : Page) (settings : TableSettings) : List Edge :=
  (match settings.vertical_strategy with
    | Strategy.Lines | Strategy.LinesStrict =>
      (page.lines.filterMap fun l =>
        if l.is_vertical then some (Edge.vertical l.x0 l.top l.bottom l.width) else none) ++
        (page.rects.flatMap fun r =>
          [Edge.vertical r.x0 r.top r.bottom r.linewidth,
            Edge.vertical r.x1 r.top r.bottom r.linewidth])
    | Strategy.Text =>
      infer_vertical_edges_from_text settings (page.words settings.text_x settings.text_y)
    | Strategy.Explicit =>
      settings.explicit_vertical_lines.map fun x => Edge.vertical x 0 page.height 1) ++
    (match settings.horizontal_strategy with
      | Strategy.Lines | Strategy.LinesStrict =>
        (page.lines.filterMap fun l =>
          if l.is_horizontal then some (Edge.horizontal l.x0 l.x1 l.top l.width) else none) ++
          (page.rects.flatMap fun r =>
            [Edge.horizontal r.x0 r.x1 r.top r.linewidth,
              Edge.horizontal r.x0 r.x1 r.bottom r.linewidth])
      | Strategy.Text =>
        infer_horizontal_edges_from_text settings (page.words settings.text_x settings.text_y)
      | Strategy.Explicit =>
        settings.explicit_horizontal_lines.map fun y => Edge.horizontal 0 page.width y 1)

/-- Embeds `Vec::dedup_by` as used in `detect.rs`: remove each element for
which the predicate holds against the last kept element. -/
def dedupBy (p : ℚ → ℚ → Bool) : List ℚ → List ℚ
  | [] => []
  | x :: xs => x :: go x xs
where
  go : ℚ → List ℚ → List ℚ
  | _, [] => []
  | last, y :: ys => if p y last then go last ys else y :: go y ys

/-- Embeds `detect.rs` `CellRect`. -/
structure CellRect where
  bbox : BBox
  row_idx : Nat
  col_idx : Nat
deriving DecidableEq, Repr

/-- Embeds `detect.rs` `has_point`. -/
def has_point (points : List (ℚ × ℚ)) (x y tol_x tol_y : ℚ) : Bool :=
  points.any fun p => decide (|p.1 - x| ≤ tol_x ∧ |p.2 - y| ≤ tol_y)

/-- Embeds `detect.rs` `has_edge_between`. -/
def has_edge_between (edges : List Edge) (start «end» fixed : ℚ) (horizontal : Bool)
    (tol_x tol_y : ℚ) : Bool :=
  edges.any fun e =>
    if horizontal then
      e.is_horizontal &&
        decide (|e.top - fixed| ≤ tol_y ∧ e.x0 ≤ start + tol_x ∧ e.x1 ≥ «end» - tol_x)
    else
      e.is_vertical &&
        decide (|e.x0 - fixed| ≤ tol_x ∧ e.top ≤ start + tol_y ∧ e.bottom ≥ «end» - tol_y)

/-- Embeds `detect.rs` `build_cells`. -/
def build_cells (settings : TableSettings) (intersections : List (ℚ × ℚ)) (edges : List Edge) :
    List CellRect :=
  let tol_x := settings.intersection_x
  let tol_y := settings.intersection_y
  let xs := dedupBy (fun a b => decide (|a - b| < tol_x))
    ((intersections.map fun p => p.1).insertionSort fun a b => a ≤ b)
  let ys := dedupBy (fun a b => decide (|a - b| < tol_y))
    ((intersections.map fun p => p.2).insertionSort fun a b => a ≤ b)
  (List.range (ys.length - 1)).flatMap fun i =>
    (List.range (xs.length - 1)).filterMap fun j =>
      let x0 := xs.getD j 0
      let x1 := xs.getD (j + 1) 0
      let y0 := ys.getD i 0
      let y1 := ys.getD (i + 1) 0
      if has_point intersections x0 y0 tol_x tol_y ∧
          has_point intersections x1 y0 tol_x tol_y ∧
          has_point intersections x0 y1 tol_x tol_y ∧
          has_point intersections x1 y1 tol_x tol_y ∧
          ((has_edge_between edges x0 x1 y0 true tol_x tol_y ∧
              has_edge_between edges x0 x1 y1 true tol_x tol_y) ∨
            (has_edge_between edges y0 y1 x0 false tol_x tol_y ∧
              has_edge_between edges y0 y1 x1 false tol_x tol_y)) then
        some { bbox := BBox.new x0 y0 x1 y1, row_idx := i, col_idx := j }
      else none

/-- Embeds `detect.rs` `cells_adjacent` (tolerance fixed at 1). -/
def cells_adjacent (a b : CellRect) : Prop :=
  ((|a.bbox.top - b.bbox.top| < 1 ∨ |a.bbox.bottom - b.bbox.bottom| < 1 ∨
        |a.bbox.top - b.bbox.bottom| < 1 ∨ |a.bbox.bottom - b.bbox.top| < 1) ∧
      a.bbox.x0 < b.bbox.x1 + 1 ∧ a.bbox.x1 > b.bbox.x0 - 1) ∨
    ((|a.bbox.x0 - b.bbox.x0| < 1 ∨ |a.bbox.x1 - b.bbox.x1| < 1 ∨
        |a.bbox.x0 - b.bbox.x1| < 1 ∨ |a.bbox.x1 - b.bbox.x0| < 1) ∧
      a.bbox.top < b.bbox.bottom + 1 ∧ a.bbox.bottom > b.bbox.top - 1)

instance (a b : CellRect) : Decidable (cells_adjacent a b) := by
  unfold cells_adjacent; infer_instance

/-- Root lookup in the union-find parent forest of
`find_contiguous_groups`, with an explicit fuel bound (path compression is
omitted: it does not change the computed roots). -/
def ufFind (parent : List Nat) : Nat → Nat → Nat
  | 0, i => i
  | fuel + 1, i =>
    let p := parent.getD i i
    if p = i then i else ufFind parent fuel p

/-- Union step of `find_contiguous_groups`: link the root of `a` under the
root of `b`. -/
def ufUnion (parent : List Nat) (n a b : Nat) : List Nat :=
  let ra := ufFind parent n a
  let rb := ufFind parent n b
  if ra = rb then parent else parent.set ra rb

/-- Embeds `detect.rs` `find_contiguous_groups`: union-find over cell
indices, unioning each adjacent pair `(i, j)` with `i < j`, then grouping
cells by root.  The Rust code collects the groups from a `HashMap` in
unspecified order; here the groups are emitted in order of the first cell
index of each root, and cells within a group keep their index order as in
the Rust push loop. -/
def find_contiguous_groups (cells : List CellRect) : List (List CellRect) :=
  match cells with
  | [] => []
  | _ =>
    let n := cells.length
    let pairs := (List.range n).flatMap fun i =>
      ((List.range n).drop (i + 1)).map fun j => (i, j)
    let parent := pairs.foldl
      (fun par (ij : Nat × Nat) =>
        if cells_adjacent (cells.getD ij.1 (cells.getD 0 ⟨BBox.default, 0, 0⟩))
            (cells.getD ij.2 (cells.getD 0 ⟨BBox.default, 0, 0⟩)) then
          ufUnion par n ij.1 ij.2
        else par)
      (List.range n)
    let roots := (List.range n).map fun i => ufFind parent n i
    roots.eraseDups.map fun r =>
      (List.range n).filterMap fun i =>
        if roots.getD i 0 = r then some (cells.getD i ⟨BBox.default, 0, 0⟩) else none

/-- Embeds `detect.rs` `extract_cell_text`. -/
def extract_cell_text (page : Page) (cell_bbox : BBox) (settings : TableSettings) : String :=
  let chars := page.chars.filter fun c =>
    decide (cell_bbox.contains_point ((c.x0 + c.x1) / 2) ((c.top + c.bottom) / 2))
  match chars.insertionSort (fun a b =>
      if |a.top - b.top| ≤ settings.text_y then a.x0 ≤ b.x0 else a.top ≤ b.top) with
  | [] => ""
  | c :: rest =>
    let acc := rest.foldl
      (fun (acc : String × ℚ) ch =>
        if |ch.top - acc.2| > settings.text_y then (acc.1 ++ "\n" ++ ch.text, ch.top)
        else (acc.1 ++ ch.text, acc.2))
      (c.text, c.top)
    acc.1.trim

/-- Embeds `detect.rs` `group_cells_into_tables` for a single non-empty
group: compute the table bbox, renumber rows and columns from the sorted
tolerance-deduplicated tops and lefts, and build the cells with their
extracted text. -/
def table_of_group (page : Page) (settings : TableSettings) (group : List CellRect) :
    Option Table :=
  match group with
  | [] => none
  | g0 :: _ =>
    let table_bbox := group.foldl (fun acc c => acc.union c.bbox) g0.bbox
    let row_ys := dedupBy (fun a b => decide (|a - b| < settings.intersection_y))
      ((group.map fun c => c.bbox.top).insertionSort fun a b => a ≤ b)
    let col_xs := dedupBy (fun a b => decide (|a - b| < settings.intersection_x))
      ((group.map fun c => c.bbox.x0).insertionSort fun a b => a ≤ b)
    some
      { bbox := table_bbox
        cells := group.map fun cell_rect =>
          { row := ((row_ys.findIdx?
                fun y => decide (|y - cell_rect.bbox.top| < settings.intersection_y)).getD 0)
            col := ((col_xs.findIdx?
                fun x => decide (|x - cell_rect.bbox.x0| < settings.intersection_x)).getD 0)
            row_span := 1
            col_span := 1
            text := extract_cell_text page cell_rect.bbox settings
            bbox := cell_rect.bbox }
        row_count := row_ys.length
        col_count := col_xs.length }

/-- Embeds `detect.rs` `group_cells_into_tables`. -/
def group_cells_into_tables (page : Page) (settings : TableSettings) (cells : List CellRect) :
    List Table :=
  match cells with
  | [] => []
  | _ => (find_contiguous_groups cells).filterMap (table_of_group page settings)

/-- Embeds `detect.rs` `detect_tables`: the full detection pipeline. -/
def detect_tables (page : Page) (settings : TableSettings) : List Table :=
  let edges := collect_edges page settings
  if edges.isEmpty then []
  else
    let edges := edges.filter fun e => decide (e.length ≥ settings.edge_min_length)
    if edges.isEmpty then []
    else
      let edges := snap_edges settings.snap_x settings.snap_y edges
      let edges := merge_edges (max settings.join_x settings.join_y) edges
      let intersections := find_intersections settings.intersection_x settings.intersection_y edges
      if intersections.length < 4 then []
      else
        let cells := build_cells settings intersections edges
        if cells.isEmpty then []
        else group_cells_into_tables page settings cells

/-- Embeds `table/extract.rs` `extract_tables`. -/
def extract_tables (page : Page) (settings : TableSettings) : List Table :=
  detect_tables page settings

/-- Embeds `table/extract.rs` `find_tables`. -/
def find_tables (page : Page) (settings : TableSettings) : List Table :=
  detect_tables page settings

end PDF

namespace Interp

noncomputable section

open scoped Classical

/-- Embeds `geometry/ctm.rs` `Matrix` over `ℝ` (the content-stream
interpreter needs a square root for the effective font size). -/
structure Matrix where
  a : ℝ
  b : ℝ
  c : ℝ
  d : ℝ
  e : ℝ
  f : ℝ

/-- Embeds `Matrix::new`. -/
def Matrix.new (a b c d e f : ℝ) : Matrix := ⟨a, b, c, d, e, f⟩

/-- Embeds `Matrix::identity`. -/
def Matrix.identity : Matrix := ⟨1, 0, 0, 1, 0, 0⟩

/-- Embeds `Matrix::translate`. -/
def Matrix.translate (tx ty : ℝ) : Matrix := ⟨1, 0, 0, 1, tx, ty⟩

/-- Embeds `Matrix::multiply` (`self * other`, PDF concatenation order). -/
def Matrix.multiply (s other : Matrix) : Matrix :=
  ⟨s.a * other.a + s.b * other.c,
    s.a * other.b + s.b * other.d,
    s.c * other.a + s.d * other.c,
    s.c * other.b + s.d * other.d,
    s.e * other.a + s.f * other.c + other.e,
    s.e * other.b + s.f * other.d + other.f⟩

/-- Embeds `Matrix::transform_point`. -/
def Matrix.transform_point (s : Matrix) (x y : ℝ) : ℝ × ℝ :=
  (s.a * x + s.c * y + s.e, s.b * x + s.d * y + s.f)

/-- Embeds `Matrix::font_size`: `sqrt(b² + d²)`. -/
def Matrix.font_size (s : Matrix) : ℝ :=
  Real.sqrt (s.b * s.b + s.d * s.d)

/-- Embeds `Matrix::is_upright`: `|b| < 1e-6 && |c| < 1e-6` (modelled as
the corresponding proposition). -/
def Matrix.is_upright (s : Matrix) : Prop :=
  |s.b| < 1 / 1000000 ∧ |s.c| < 1 / 1000000

/-- Embeds `objects.rs` `Color`. -/
inductive Color where
  | Gray (v : ℝ)
  | RGB (r g b : ℝ)
  | CMYK (c m y k : ℝ)

/-- Embeds `fonts/mod.rs` `FontSubtype`. -/
inductive FontSubtype where
  | Type1
  | TrueType
  | Type3
  | Type0
  | CIDFontType0
  | CIDFontType2
  | MMType1
  | Unknown (s : String)

/-- Embeds `fonts/mod.rs` `FontInfo`.  The `to_unicode` and `widths` hash
maps are modelled as association lists looked up by key; the `encoding`
enum of `fonts/encoding.rs` is modelled by its `decode` function
(code `→` optional character). -/
structure FontInfo where
  name : String
  base_font : String
  subtype : FontSubtype
  to_unicode : List (Nat × String)
  widths : List (Nat × ℝ)
  default_width : ℝ
  first_char : Nat
  encoding : Nat → Option Char
  is_cid : Bool
  bytes_per_char : Nat

/-- Embeds `FontInfo::default` (the default `Encoding::Standard` table has
no entry relevant to the claims settled here; its `decode` function is
abstracted as a parameter of the default). -/
def FontInfo.mkDefault (standardEncoding : Nat → Option Char) : FontInfo :=
  { name := ""
    base_font := ""
    subtype := FontSubtype.Type1
    to_unicode := []
    widths := []
    default_width := 1000
    first_char := 0
    encoding := standardEncoding
    is_cid := false
    bytes_per_char := 1 }

/-- Embeds `FontInfo::decode_char`: ToUnicode first, then the encoding,
then raw ASCII below 128, finally U+FFFD. -/
def FontInfo.decode_char (fi : FontInfo) (code : Nat) : String :=
  match fi.to_unicode.lookup code with
  | some s => s
  | none =>
    match fi.encoding code with
    | some c => c.toString
    | none =>
      if code < 128 then (Char.ofNat code).toString
      else "�"

/-- Embeds `FontInfo::char_width`. -/
def FontInfo.char_width (fi : FontInfo) (code : Nat) : ℝ :=
  (fi.widths.lookup code).getD fi.default_width

/-- Splits a byte string into 2-byte chunks; a trailing odd byte forms a
1-byte chunk (`bytes.chunks(2)`). -/
def chunks2 : List Nat → List (List Nat)
  | [] => []
  | [a] => [[a]]
  | a :: b :: rest => [a, b] :: chunks2 rest

/-- Embeds `FontInfo::decode_string`: 2-byte big-endian codes for CID
fonts (a lone trailing byte is a 1-byte code), 1-byte codes otherwise. -/
def FontInfo.decode_string (fi : FontInfo) (bytes : List Nat) : List (Nat × String) :=
  if fi.is_cid || fi.bytes_per_char == 2 then
    (chunks2 bytes).map fun chunk =>
      let code := match chunk with
        | [a, b] => a * 256 + b
        | [a] => a
        | _ => 0
      (code, fi.decode_char code)
  else
    bytes.map fun b => (b, fi.decode_char b)

/-- A Unicode character (`Char` below shadows Lean's character type
inside this namespace). -/
abbrev Uni : Type := Char

/-- Embeds `objects.rs` `Char` for the interpreter (the rendering matrix
is stored as a `Matrix` instead of a 6-array; the `Arc` colour handles are
plain options; `upright` is the proposition computed by
`Matrix::is_upright`). -/
structure Char where
  text : String
  fontname : String
  size : ℝ
  x0 : ℝ
  x1 : ℝ
  top : ℝ
  bottom : ℝ
  doctop : ℝ
  matrix : Matrix
  upright : Prop
  stroking_color : Option Color
  non_stroking_color : Option Color
  adv : ℝ

/-- Embeds `objects.rs` `Line` for the interpreter. -/
structure Line where
  x0 : ℝ
  y0 : ℝ
  x1 : ℝ
  y1 : ℝ
  top : ℝ
  bottom : ℝ
  width : ℝ
  stroking_color : Option Color
  non_stroking_color : Option Color

/-- Embeds `objects.rs` `Rect` for the interpreter. -/
structure Rect where
  x0 : ℝ
  top : ℝ
  x1 : ℝ
  bottom : ℝ
  width : ℝ
  height : ℝ
  linewidth : ℝ
  stroking_color : Option Color
  non_stroking_color : Option Color

/-- Embeds `objects.rs` `Curve` for the interpreter. -/
structure Curve where
  points : List (ℝ × ℝ)
  width : ℝ
  stroking_color : Option Color
  non_stroking_color : Option Color

/-- Embeds `objects.rs` `GraphicsState`. -/
structure GraphicsState where
  ctm : Matrix
  line_width : ℝ
  line_cap : Int
  line_join : Int
  miter_limit : ℝ
  dash_pattern : List ℝ
  dash_phase : ℝ
  stroking_color : Option Color
  non_stroking_color : Option Color
  stroking_colorspace : String
  non_stroking_colorspace : String

/-- Embeds `GraphicsState::default`. -/
def GraphicsState.mkDefault : GraphicsState :=
  { ctm := Matrix.identity
    line_width := 1
    line_cap := 0
    line_join := 0
    miter_limit := 10
    dash_pattern := []
    dash_phase := 0
    stroking_color := some (Color.Gray 0)
    non_stroking_color := some (Color.Gray 0)
    stroking_colorspace := "DeviceGray"
    non_stroking_colorspace := "DeviceGray" }

/-- Embeds `objects.rs` `TextState`. -/
structure TextState where
  font_name : String
  font_size : ℝ
  char_spacing : ℝ
  word_spacing : ℝ
  horizontal_scaling : ℝ
  leading : ℝ
  rise : ℝ
  render_mode : Int
  text_matrix : Matrix
  text_line_matrix : Matrix

/-- Embeds `TextState::default`. -/
def TextState.mkDefault : TextState :=
  { font_name := ""
    font_size := 0
    char_spacing := 0
    word_spacing := 0
    horizontal_scaling := 100
    leading := 0
    rise := 0
    render_mode := 0
    text_matrix := Matrix.identity
    text_line_matrix := Matrix.identity }

/-- Embeds `content_stream.rs` `PathSegment`. -/
inductive PathSegment where
  | MoveTo (x y : ℝ)
  | LineTo (x y : ℝ)
  | CurveTo (x1 y1 x2 y2 x3 y3 : ℝ)
  | ClosePath
  | Rect (x y w h : ℝ)

/-- Embeds the ExtGState dictionary entries consulted by the `gs`
operator (`LW`, `LC`, `LJ`, `Font [name size]`), abstracting the lopdf
dictionary plumbing. -/
structure ExtGState where
  lw : Option ℝ
  lc : Option ℝ
  lj : Option ℝ
  font : Option (String × ℝ)

/-- Embeds a content-stream operation, structured by operator.  Operator
aliases with identical behaviour share one constructor (`F`/`f*` with `f`,
`B*` with `B`, `b*` with `b`, `SCN` with `SC`, `scn` with `sc`); operands
carry the arity the handler requires (invocations with fewer operands are
skipped by the Rust handlers and are not modelled). -/
inductive TJItem where
  | str (bytes : List Nat)
  | num (n : ℝ)

inductive Op where
  | q
  | Q
  | cm (a b c d e f : ℝ)
  | w (width : ℝ)
  | J (cap : ℝ)
  | j (join : ℝ)
  | M (limit : ℝ)
  | d (pattern : List ℝ) (phase : ℝ)
  | gs (name : String)
  | CS (name : String)
  | cs (name : String)
  | SC (operands : List ℝ)
  | sc (operands : List ℝ)
  | G (v : ℝ)
  | g (v : ℝ)
  | RG (r gr b : ℝ)
  | rg (r gr b : ℝ)
  | K (c m y k : ℝ)
  | k (c m y k : ℝ)
  | BT
  | ET
  | Tf (name : String) (size : ℝ)
  | Tc (v : ℝ)
  | Tw (v : ℝ)
  | Tz (v : ℝ)
  | TL (v : ℝ)
  | Tr (v : ℝ)
  | Ts (v : ℝ)
  | Td (tx ty : ℝ)
  | TD (tx ty : ℝ)
  | Tm (a b c d e f : ℝ)
  | Tstar
  | Tj (bytes : List Nat)
  | TJ (items : List TJItem)
  | quote (bytes : List Nat)
  | dquote (aw ac : ℝ) (bytes : List Nat)
  | m (x y : ℝ)
  | l (x y : ℝ)
  | c (x1 y1 x2 y2 x3 y3 : ℝ)
  | v (x2 y2 x3 y3 : ℝ)
  | y (x1 y1 x3 y3 : ℝ)
  | h
  | re (x yy w hh : ℝ)
  | S
  | sOp
  | f
  | B
  | bOp
  | n
  | Do (name : String)
  | unknown

/-- A resource dictionary: XObject names resolve to object ids in the
store, fonts resolve (via `resolve_font`, abstracted here) to `FontInfo`
values, and ExtGState names resolve to their entries. -/
structure Resources where
  xobjects : List (String × Nat)
  fonts : List (String × FontInfo)
  ext_gstates : List (String × ExtGState)

/-- A Form XObject stream from the document's object store: its
`/Subtype`, optional `/Matrix`, optional `/Resources`, and decoded content
operations. -/
structure XStream where
  subtype : String
  matrix : Option Matrix
  resources : Option Resources
  content : List Op

/-- Embeds the mutable fields of `ContentStreamInterpreter` (the document
handle and font cache borrow are replaced by explicit parameters and a
state field).  The Rust `Vec` graphics stack pushes and pops at its end;
here the head of the list is the top of the stack. -/
structure InterpState where
  page_height : ℝ
  doctop_offset : ℝ
  fonts : List (String × FontInfo)
  graphics_stack : List GraphicsState
  gs : GraphicsState
  ts : TextState
  in_text : Bool
  path : List PathSegment
  current_point : Option (ℝ × ℝ)
  chars : List Char
  lines : List Line
  rects : List Rect
  curves : List Curve

/-- Embeds `ContentStreamInterpreter::new`. -/
def InterpState.new (page_height doctop_offset : ℝ) : InterpState :=
  { page_height := page_height
    doctop_offset := doctop_offset
    fonts := []
    graphics_stack := []
    gs := GraphicsState.mkDefault
    ts := TextState.mkDefault
    in_text := false
    path := []
    current_point := none
    chars := []
    lines := []
    rects := []
    curves := [] }

/-- Embeds `op_save_state`: push a clone of the live graphics state. -/
def op_save_state (st : InterpState) : InterpState :=
  { st with graphics_stack := st.gs :: st.graphics_stack }

/-- Embeds `op_restore_state`: pop if the stack is non-empty, otherwise do
nothing. -/
def op_restore_state (st : InterpState) : InterpState :=
  match st.graphics_stack with
  | [] => st
  | g :: rest => { st with gs := g, graphics_stack := rest }

/-- Embeds `op_concat_matrix`: `CTM ← M · CTM`. -/
def op_concat_matrix (st : InterpState) (mx : Matrix) : InterpState :=
  { st with gs := { st.gs with ctm := mx.multiply st.gs.ctm } }

/-- Embeds `parse_color`: decode operands by the current colorspace, with
a fallback keyed on the operand count. -/
def parse_color (operands : List ℝ) (colorspace : String) : Option Color :=
  match colorspace, operands with
  | "DeviceGray", v :: _ => some (Color.Gray v)
  | "CalGray", v :: _ => some (Color.Gray v)
  | "DeviceRGB", r :: g :: b :: _ => some (Color.RGB r g b)
  | "CalRGB", r :: g :: b :: _ => some (Color.RGB r g b)
  | "DeviceCMYK", c :: mm :: yy :: k :: _ => some (Color.CMYK c mm yy k)
  | _, [v] => some (Color.Gray v)
  | _, [r, g, b] => some (Color.RGB r g b)
  | _, [c, mm, yy, k] => some (Color.CMYK c mm yy k)
  | _, _ => none

/-- Embeds `op_set_graphics_state` (`gs`): apply `LW`/`LC`/`LJ` and
`Font` from the named ExtGState entry, when present. -/
def op_set_graphics_state (st : InterpState) (name : String) (res : Option Resources) :
    InterpState :=
  match res with
  | none => st
  | some r =>
    match r.ext_gstates.lookup name with
    | none => st
    | some egs =>
      let st := match egs.lw with
        | some lw => { st with gs := { st.gs with line_width := lw } }
        | none => st
      let st := match egs.lc with
        | some lc => { st with gs := { st.gs with line_cap := ⌊lc⌋ } }
        | none => st
      let st := match egs.lj with
        | some lj => { st with gs := { st.gs with line_join := ⌊lj⌋ } }
        | none => st
      match egs.font with
      | some (fname, fsize) =>
        { st with ts := { st.ts with font_name := fname, font_size := fsize } }
      | none => st

/-- Embeds `op_begin_text`. -/
def op_begin_text (st : InterpState) : InterpState :=
  { st with
      in_text := true
      ts := { st.ts with text_matrix := Matrix.identity, text_line_matrix := Matrix.identity } }

/-- Embeds `op_text_move` (`Td`). -/
def op_text_move (st : InterpState) (tx ty : ℝ) : InterpState :=
  let tlm := (Matrix.translate tx ty).multiply st.ts.text_line_matrix
  { st with ts := { st.ts with text_line_matrix := tlm, text_matrix := tlm } }

/-- Embeds `op_text_next_line` (`T*`). -/
def op_text_next_line (st : InterpState) : InterpState :=
  let tlm := (Matrix.translate 0 (-st.ts.leading)).multiply st.ts.text_line_matrix
  { st with ts := { st.ts with text_line_matrix := tlm, text_matrix := tlm } }

/-- Embeds `adjust_text_position`:
`tx = -(adjustment/1000) · font_size · horizontal_scaling/100`. -/
def adjust_text_position (st : InterpState) (adjustment : ℝ) : InterpState :=
  let tx := -(adjustment / 1000) * st.ts.font_size * (st.ts.horizontal_scaling / 100)
  { st with ts :=
      { st.ts with text_matrix := (Matrix.translate tx 0).multiply st.ts.text_matrix } }

/-- The font matrix built inside `render_text`:
`[size·h, 0, 0, size, 0, rise]`. -/
def fontMatrix (ts : TextState) : Matrix :=
  Matrix.new (ts.font_size * (ts.horizontal_scaling / 100)) 0 0 ts.font_size 0 ts.rise

/-- The text rendering matrix of a glyph:
`Trm = FontMatrix · Tm · CTM`. -/
def glyphTrm (ts : TextState) (gst : GraphicsState) : Matrix :=
  ((fontMatrix ts).multiply ts.text_matrix).multiply gst.ctm

/-- The `Char` built for one decoded glyph in `render_text`
(lines 616-671 of `content_stream.rs`). -/
def renderGlyphChar (page_height doctop_offset : ℝ) (font_info : FontInfo)
    (ts : TextState) (gst : GraphicsState) (code : Nat) (text : String) : Char :=
  let trm := glyphTrm ts gst
  let w0 := font_info.char_width code / 1000
  let h_scale := ts.horizontal_scaling / 100
  let effective_size := trm.font_size
  let bottom := page_height - trm.f
  let top := bottom - effective_size
  let x0 := trm.e
  let x1 := x0 + w0 * effective_size * h_scale
  { text := text
    fontname := font_info.base_font
    size := effective_size
    x0 := x0
    x1 := x1
    top := top
    bottom := bottom
    doctop := top + doctop_offset
    matrix := trm
    upright := trm.is_upright
    stroking_color := gst.stroking_color
    non_stroking_color := gst.non_stroking_color
    adv := glyphAdvanceAux font_info ts code text }
where
  /-- The advance `tx` of the glyph: `(w0·size + char_spacing)·h`, plus
  `word_spacing·h` when the decoded text is a single space. -/
  glyphAdvanceAux (font_info : FontInfo) (ts : TextState) (code : Nat) (text : String) : ℝ :=
    let w0 := font_info.char_width code / 1000
    let tx := (w0 * ts.font_size + ts.char_spacing) * (ts.horizontal_scaling / 100)
    if text = " " then tx + ts.word_spacing * (ts.horizontal_scaling / 100) else tx

/-- The advance `tx` of one glyph (see `renderGlyphChar.glyphAdvanceAux`). -/
def glyphAdvance (font_info : FontInfo) (ts : TextState) (code : Nat)
    (text : String) : ℝ :=
  renderGlyphChar.glyphAdvanceAux font_info ts code text

/-- One iteration of the glyph loop of `render_text`: emit the `Char` and
advance the text matrix by `translate(tx, 0)`. -/
def renderGlyph (st : InterpState) (font_info : FontInfo) (code : Nat)
    (text : String) : InterpState :=
  let ch := renderGlyphChar st.page_height st.doctop_offset font_info st.ts st.gs code text
  let tx := glyphAdvance font_info st.ts code text
  { st with
      chars := st.chars ++ [ch]
      ts := { st.ts with text_matrix := (Matrix.translate tx 0).multiply st.ts.text_matrix } }

/-- Embeds `render_text`: look up the current font (falling back to the
default font), decode the byte string, and render each glyph in turn. -/
def render_text (standardEncoding : Nat → Option Uni) (st : InterpState)
    (bytes : List Nat) : InterpState :=
  let font_info := (st.fonts.lookup st.ts.font_name).getD (FontInfo.mkDefault standardEncoding)
  (font_info.decode_string bytes).foldl (fun s ct => renderGlyph s font_info ct.1 ct.2) st

/-- Embeds `to_page_coords`: flip y to top-left page coordinates. -/
def to_page_coords (page_height x y₀ : ℝ) : ℝ × ℝ := (x, page_height - y₀)

/-- Embeds `add_line`: convert both endpoints to page coordinates, keep
them in draw order, and take `top`/`bottom` as their min/max y. -/
def add_line (st : InterpState) (x0 y0 x1 y1 : ℝ) : InterpState :=
  let p0 := to_page_coords st.page_height x0 y0
  let p1 := to_page_coords st.page_height x1 y1
  { st with lines := st.lines ++
      [{ x0 := p0.1, y0 := p0.2, x1 := p1.1, y1 := p1.2,
         top := min p0.2 p1.2, bottom := max p0.2 p1.2,
         width := st.gs.line_width,
         stroking_color := st.gs.stroking_color,
         non_stroking_color := st.gs.non_stroking_color }] }

/-- One iteration of the path replay loop of `extract_path_objects`.  The
accumulator carries the state together with the current point and the
subpath start (both transformed). -/
def pathStep (stroke fill : Bool) (ctm : Matrix)
    (acc : InterpState × (ℝ × ℝ) × (ℝ × ℝ)) (seg : PathSegment) :
    InterpState × (ℝ × ℝ) × (ℝ × ℝ) :=
  let st := acc.1
  let current := acc.2.1
  let subpath_start := acc.2.2
  match seg with
  | PathSegment.MoveTo x yc =>
    let t := ctm.transform_point x yc
    (st, t, t)
  | PathSegment.LineTo x yc =>
    let t := ctm.transform_point x yc
    (if stroke then add_line st current.1 current.2 t.1 t.2 else st, t, subpath_start)
  | PathSegment.CurveTo x1 y1 x2 y2 x3 y3 =>
    let t1 := ctm.transform_point x1 y1
    let t2 := ctm.transform_point x2 y2
    let t3 := ctm.transform_point x3 y3
    let curve : Curve :=
      { points := [to_page_coords st.page_height current.1 current.2,
          to_page_coords st.page_height t1.1 t1.2,
          to_page_coords st.page_height t2.1 t2.2,
          to_page_coords st.page_height t3.1 t3.2]
        width := st.gs.line_width
        stroking_color := if stroke then st.gs.stroking_color else none
        non_stroking_color := if fill then st.gs.non_stroking_color else none }
    ({ st with curves := st.curves ++ [curve] }, t3, subpath_start)
  | PathSegment.ClosePath =>
    (if stroke ∧ |current.1 - subpath_start.1| > 1 / 1000000 ∧
        |current.2 - subpath_start.2| > 1 / 1000000 then
      add_line st current.1 current.2 subpath_start.1 subpath_start.2
    else st, subpath_start, subpath_start)
  | PathSegment.Rect x yc wd ht =>
    let t0 := ctm.transform_point x yc
    let t1 := ctm.transform_point (x + wd) (yc + ht)
    let top := st.page_height - max t0.2 t1.2
    let bottom := st.page_height - min t0.2 t1.2
    let left := min t0.1 t1.1
    let right := max t0.1 t1.1
    let rect : Rect :=
      { x0 := left, top := top, x1 := right, bottom := bottom
        width := |right - left|, height := |bottom - top|
        linewidth := st.gs.line_width
        stroking_color := if stroke then st.gs.stroking_color else none
        non_stroking_color := if fill then st.gs.non_stroking_color else none }
    ({ st with rects := st.rects ++ [rect] }, current, subpath_start)

/-- Embeds `extract_path_objects`: take the path buffer out of the state
and replay it under the current CTM, starting from current point and
subpath start `(0, 0)`. -/
def extract_path_objects (st : InterpState) (stroke fill : Bool) : InterpState :=
  let path := st.path
  let ctm := st.gs.ctm
  (path.foldl (pathStep stroke fill ctm) ({ st with path := [] }, (0, 0), (0, 0))).1

/-- Embeds `op_stroke`. -/
def op_stroke (st : InterpState) : InterpState :=
  let st := extract_path_objects st true false
  { st with path := [], current_point := none }

/-- Embeds `op_fill`. -/
def op_fill (st : InterpState) : InterpState :=
  let st := extract_path_objects st false true
  { st with path := [], current_point := none }

/-- Embeds `op_end_path`. -/
def op_end_path (st : InterpState) : InterpState :=
  { st with path := [], current_point := none }

/-- Embeds `op_path_close`. -/
def op_path_close (st : InterpState) : InterpState :=
  { st with path := st.path ++ [PathSegment.ClosePath] }

/-- Embeds `load_fonts`: insert each resolved font of the resource
dictionary that is not already cached (font resolution itself is
abstracted: the resource dictionary carries resolved `FontInfo` values). -/
def load_fonts (st : InterpState) (res : Option Resources) : InterpState :=
  match res with
  | none => st
  | some r =>
    let newFonts := r.fonts.foldl
      (fun fs nf => if (fs.lookup nf.1).isSome then fs else fs ++ [nf]) st.fonts
    { st with fonts := newFonts }

/-- One step of the `TJ` item loop of `op_show_text_adjusted`. -/
def tjStep (standardEncoding : Nat → Option Uni) (st : InterpState) : TJItem → InterpState
  | TJItem.str bytes => render_text standardEncoding st bytes
  | TJItem.num nval => adjust_text_position st nval

mutual

/-- Embeds `process_operation` together with `op_do_xobject`.  The `fuel`
argument bounds the depth of nested Form-XObject interpretation: the Rust
code recurses without any depth bound, so `none` here means the Rust
recursion is still descending past that depth.  All other operators are
handled exactly as in `process_operation`; unknown operators are
skipped. -/
def interpOp (standardEncoding : Nat → Option Uni) (store : List (Nat × XStream)) :
    Nat → InterpState → Op → Option Resources → Option InterpState
  | _, st, Op.q, _ => some (op_save_state st)
  | _, st, Op.Q, _ => some (op_restore_state st)
  | _, st, Op.cm a b c d e f, _ => some (op_concat_matrix st (Matrix.new a b c d e f))
  | _, st, Op.w width, _ => some { st with gs := { st.gs with line_width := width } }
  | _, st, Op.J cap, _ => some { st with gs := { st.gs with line_cap := ⌊cap⌋ } }
  | _, st, Op.j join, _ => some { st with gs := { st.gs with line_join := ⌊join⌋ } }
  | _, st, Op.M limit, _ => some { st with gs := { st.gs with miter_limit := limit } }
  | _, st, Op.d pattern phase, _ =>
    some { st with gs := { st.gs with dash_pattern := pattern, dash_phase := phase } }
  | _, st, Op.gs name, res => some (op_set_graphics_state st name res)
  | _, st, Op.CS name, _ =>
    some { st with gs := { st.gs with stroking_colorspace := name } }
  | _, st, Op.cs name, _ =>
    some { st with gs := { st.gs with non_stroking_colorspace := name } }
  | _, st, Op.SC operands, _ =>
    some { st with gs :=
      { st.gs with stroking_color := parse_color operands st.gs.stroking_colorspace } }
  | _, st, Op.sc operands, _ =>
    some { st with gs :=
      { st.gs with non_stroking_color := parse_color operands st.gs.non_stroking_colorspace } }
  | _, st, Op.G v, _ =>
    some { st with gs := { st.gs with
      stroking_color := some (Color.Gray v), stroking_colorspace := "DeviceGray" } }
  | _, st, Op.g v, _ =>
    some { st with gs := { st.gs with
      non_stroking_color := some (Color.Gray v), non_stroking_colorspace := "DeviceGray" } }
  | _, st, Op.RG r gr b, _ =>
    some { st with gs := { st.gs with
      stroking_color := some (Color.RGB r gr b), stroking_colorspace := "DeviceRGB" } }
  | _, st, Op.rg r gr b, _ =>
    some { st with gs := { st.gs with
      non_stroking_color := some (Color.RGB r gr b), non_stroking_colorspace := "DeviceRGB" } }
  | _, st, Op.K c mm yy k, _ =>
    some { st with gs := { st.gs with
      stroking_color := some (Color.CMYK c mm yy k), stroking_colorspace := "DeviceCMYK" } }
  | _, st, Op.k c mm yy k, _ =>
    some { st with gs := { st.gs with
      non_stroking_color := some (Color.CMYK c mm yy k)
      non_stroking_colorspace := "DeviceCMYK" } }
  | _, st, Op.BT, _ => some (op_begin_text st)
  | _, st, Op.ET, _ => some { st with in_text := false }
  | _, st, Op.Tf name size, _ =>
    some { st with ts := { st.ts with font_name := name, font_size := size } }
  | _, st, Op.Tc v, _ => some { st with ts := { st.ts with char_spacing := v } }
  | _, st, Op.Tw v, _ => some { st with ts := { st.ts with word_spacing := v } }
  | _, st, Op.Tz v, _ => some { st with ts := { st.ts with horizontal_scaling := v } }
  | _, st, Op.TL v, _ => some { st with ts := { st.ts with leading := v } }
  | _, st, Op.Tr v, _ => some { st with ts := { st.ts with render_mode := ⌊v⌋ } }
  | _, st, Op.Ts v, _ => some { st with ts := { st.ts with rise := v } }
  | _, st, Op.Td tx ty, _ => some (op_text_move st tx ty)
  | _, st, Op.TD tx ty, _ =>
    some (op_text_move { st with ts := { st.ts with leading := -ty } } tx ty)
  | _, st, Op.Tm a b c d e f, _ =>
    some { st with ts :=
      { st.ts with
          text_matrix := Matrix.new a b c d e f
          text_line_matrix := Matrix.new a b c d e f } }
  | _, st, Op.Tstar, _ => some (op_text_next_line st)
  | _, st, Op.Tj bytes, _ => some (render_text standardEncoding st bytes)
  | _, st, Op.TJ items, _ => some (items.foldl (tjStep standardEncoding) st)
  | _, st, Op.quote bytes, _ =>
    some (render_text standardEncoding (op_text_next_line st) bytes)
  | _, st, Op.dquote aw ac bytes, _ =>
    some (render_text standardEncoding
      (op_text_next_line
        { st with ts := { st.ts with word_spacing := aw, char_spacing := ac } }) bytes)
  | _, st, Op.m x yv, _ =>
    some { st with path := st.path ++ [PathSegment.MoveTo x yv], current_point := some (x, yv) }
  | _, st, Op.l x yv, _ =>
    some { st with path := st.path ++ [PathSegment.LineTo x yv], current_point := some (x, yv) }
  | _, st, Op.c x1 y1 x2 y2 x3 y3, _ =>
    some { st with
      path := st.path ++ [PathSegment.CurveTo x1 y1 x2 y2 x3 y3]
      current_point := some (x3, y3) }
  | _, st, Op.v x2 y2 x3 y3, _ =>
    match st.current_point with
    | some (cx, cy) =>
      some { st with
        path := st.path ++ [PathSegment.CurveTo cx cy x2 y2 x3 y3]
        current_point := some (x3, y3) }
    | none => some st
  | _, st, Op.y x1 y1 x3 y3, _ =>
    some { st with
      path := st.path ++ [PathSegment.CurveTo x1 y1 x3 y3 x3 y3]
      current_point := some (x3, y3) }
  | _, st, Op.h, _ => some (op_path_close st)
  | _, st, Op.re x yv w hv, _ =>
    some { st with path := st.path ++ [PathSegment.Rect x yv w hv] }
  | _, st, Op.S, _ => some (op_stroke st)
  | _, st, Op.sOp, _ => some (op_stroke (op_path_close st))
  | _, st, Op.f, _ => some (op_fill st)
  | _, st, Op.B, _ => some (op_stroke (op_fill st))
  | _, st, Op.bOp, _ => some (op_stroke (op_fill (op_path_close st)))
  | _, st, Op.n, _ => some (op_end_path st)
  | fuel, st, Op.Do name, res =>
    match res with
    | none => some st
    | some r =>
      match r.xobjects.lookup name with
      | none => some st
      | some xobj_id =>
        match store.lookup xobj_id with
        | none => some st
        | some stream =>
          if stream.subtype = "Form" then
            match fuel with
            | 0 => none
            | fuel' + 1 =>
              let st := op_save_state st
              let st := match stream.matrix with
                | some mx => { st with gs := { st.gs with ctm := mx.multiply st.gs.ctm } }
                | none => st
              let form_res := match stream.resources with
                | some fr => some fr
                | none => res
              let st := load_fonts st form_res
              match interpOps standardEncoding store fuel' st stream.content form_res with
              | some st' => some (op_restore_state st')
              | none => none
          else some st
  | _, st, Op.unknown, _ => some st
termination_by fuel _ _ _ => (fuel, 0)

/-- Embeds the operation loop of `process_page` (and of the Form-XObject
body): process the operations in order. -/
def interpOps (standardEncoding : Nat → Option Uni) (store : List (Nat × XStream)) :
    Nat → InterpState → List Op → Option Resources → Option InterpState
  | _, st, [], _ => some st
  | fuel, st, op :: ops, res =>
    match interpOp standardEncoding store fuel st op res with
    | some st' => interpOps standardEncoding store fuel st' ops res
    | none => none
termination_by fuel _ ops _ => (fuel, ops.length + 1)

end

/-- Embeds `process_page`: load the page fonts, then process the content
operations. -/
def process_page (standardEncoding : Nat → Option Uni) (store : List (Nat × XStream))
    (fuel : Nat) (page_height doctop_offset : ℝ) (ops : List Op) (res : Option Resources) :
    Option InterpState :=
  interpOps standardEncoding store fuel
    (load_fonts (InterpState.new page_height doctop_offset) res) ops res

end

end Interp

namespace PDF

/-- Concrete crop box used to probe `Page::crop`. -/
def c5bbox : BBox := BBox.new 0 0 10 10

/-- A character that straddles `c5bbox`: its bbox intersects the crop box
but neither its `(x0, top)` nor its `(x1, bottom)` corner lies inside. -/
def c5char : Char :=
  { text := "A", fontname := "F", size := 10, x0 := -5, x1 := 15, top := 5, bottom := 6,
    doctop := 5, upright := true }

/-- A one-character page used to probe `Page::crop`. -/
def c5page : Page :=
  { page_number := 1, width := 612, height := 792, doctop_offset := 0,
    chars := [c5char], lines := [], rects := [], curves := [] }

/-- A page holding one 100×50 rectangle and nothing else; the table
detector finds a single one-cell table on it, and the cell has no text. -/
def c6page : Page :=
  { page_number := 1, width := 612, height := 792, doctop_offset := 0,
    chars := [], lines := [],
    rects := [{ x0 := 0, top := 0, x1 := 100, bottom := 50, width := 100, height := 50,
                linewidth := 1 }],
    curves := [] }

/-- The single table detected on `c6page` under the default settings. -/
def c6table : Table :=
  { bbox := BBox.new 0 0 100 50
    cells := [{ row := 0, col := 0, row_span := 1, col_span := 1, text := "",
                bbox := BBox.new 0 0 100 50 }]
    row_count := 1
    col_count := 1 }

/-- A non-flat edge classified `Horizontal` by `Edge::new`: its `top` and
`bottom` differ. -/
def c9edge1 : Edge := Edge.new 0 1 20 9 1

/-- A second non-flat `Horizontal` edge, overlapping `c9edge1`'s top
within the snap tolerance. -/
def c9edge2 : Edge := Edge.new 0 0 20 5 1

/-- Flat edges: horizontal edges have `top = bottom`, vertical edges have
`x0 = x1` — the shape `collect_edges` always produces. -/
def flatEdges (edges : List Edge) : Prop :=
  ∀ e ∈ edges, (e.is_horizontal = true → e.top = e.bottom) ∧
    (e.is_vertical = true → e.x0 = e.x1)

/-- A list of key values is `tol`-separated when any two values within
`tol` of each other are equal. -/
def SepKeys (tol : ℚ) (ks : List ℚ) : Prop :=
  ∀ a ∈ ks, ∀ b ∈ ks, |a - b| ≤ tol → a = b

end PDF

namespace Interp

noncomputable section

open scoped Classical

/-- Bounding box over `ℝ` (used to state bbox-level invariants about the
interpreter's primitives, mirroring `geometry/bbox.rs`). -/
structure RBBox where
  x0 : ℝ
  top : ℝ
  x1 : ℝ
  bottom : ℝ

/-- Embeds `Curve::bbox` for the interpreter's curves (fold of min/max
over the points, as in `objects.rs`; empty point lists give the zero
box). -/
def Curve.bbox (c : Curve) : RBBox :=
  match c.points with
  | [] => ⟨0, 0, 0, 0⟩
  | p :: ps =>
    ps.foldl (fun acc q => ⟨min acc.x0 q.1, min acc.top q.2, max acc.x1 q.1, max acc.bottom q.2⟩)
      ⟨p.1, p.2, p.1, p.2⟩

/-- The property asserted by the emitted-primitives invariant claim:
`x0 ≤ x1` and `top ≤ bottom` on every primitive (curves via their bbox),
and `size > 0` on every char. -/
def claimedInvariant (st : InterpState) : Prop :=
  (∀ ch ∈ st.chars, ch.x0 ≤ ch.x1 ∧ ch.top ≤ ch.bottom ∧ 0 < ch.size) ∧
    (∀ l ∈ st.lines, l.x0 ≤ l.x1 ∧ l.top ≤ l.bottom) ∧
    (∀ r ∈ st.rects, r.x0 ≤ r.x1 ∧ r.top ≤ r.bottom) ∧
    (∀ cu ∈ st.curves, cu.bbox.x0 ≤ cu.bbox.x1 ∧ cu.bbox.top ≤ cu.bbox.bottom)

/-- The provable part of the emitted-primitives invariant: `top ≤ bottom`
everywhere, `x0 ≤ x1` for rects and curve bboxes, `size ≥ 0` for chars. -/
def amendedInvariant (st : InterpState) : Prop :=
  (∀ ch ∈ st.chars, ch.top ≤ ch.bottom ∧ 0 ≤ ch.size) ∧
    (∀ l ∈ st.lines, l.top ≤ l.bottom) ∧
    (∀ r ∈ st.rects, r.x0 ≤ r.x1 ∧ r.top ≤ r.bottom) ∧
    (∀ cu ∈ st.curves, cu.bbox.x0 ≤ cu.bbox.x1 ∧ cu.bbox.top ≤ cu.bbox.bottom)

/-- A font whose ToUnicode maps code 65 to `ﬁ` while its encoding maps
65 to `Z`. -/
def c2font : FontInfo :=
  { name := "F", base_font := "F", subtype := FontSubtype.Type1,
    to_unicode := [(65, "ﬁ")], widths := [], default_width := 1000,
    first_char := 0, encoding := fun code => if code = 65 then some 'Z' else none,
    is_cid := false, bytes_per_char := 1 }

/-- A font with ToUnicode entries for codes 65 and 66 and no encoding. -/
def c3font : FontInfo :=
  { name := "F", base_font := "F", subtype := FontSubtype.Type1,
    to_unicode := [(65, "A"), (66, "B")], widths := [], default_width := 1000,
    first_char := 0, encoding := fun _ => none, is_cid := false, bytes_per_char := 1 }

/-- Interpreter state on a height-100 page with font `F` loaded. -/
def c3state : InterpState :=
  { InterpState.new 100 0 with fonts := [("F", c3font)] }

/-- A content stream that (i) shows a glyph at 12-point with −100%
horizontal scaling, (ii) shows a glyph at font size 0, and (iii) strokes a
right-to-left line. -/
def c3ops : List Op :=
  [Op.BT, Op.Tf "F" 12, Op.Tz (-100), Op.Tj [65], Op.Tf "F" 0, Op.Tz 100, Op.Tj [66],
    Op.ET, Op.m 5 0, Op.l 0 0, Op.S]

/-- A path whose closing segment is purely horizontal: `0 0 m 5 0 l h`. -/
def c4state : InterpState :=
  { InterpState.new 100 0 with
      path := [PathSegment.MoveTo 0 0, PathSegment.LineTo 5 0, PathSegment.ClosePath] }

/-- Resource dictionary whose XObject `X` is object 1. -/
def c7res : Resources := { xobjects := [("X", 1)], fonts := [], ext_gstates := [] }

/-- Object 1: a Form XObject whose content is `/X Do` with resources that
again resolve `X` to object 1 — a self-referential Form cycle. -/
def c7stream : XStream :=
  { subtype := "Form", matrix := none, resources := some c7res, content := [Op.Do "X"] }

/-- The object store holding the cyclic Form XObject. -/
def c7store : List (Nat × XStream) := [(1, c7stream)]

/-- Recognizes the `q` operator. -/
def Op.isq : Op → Bool
  | Op.q => true
  | _ => false

/-- Recognizes the `Q` operator. -/
def Op.isQ : Op → Bool
  | Op.Q => true
  | _ => false

/-- Recognizes the `Do` operator. -/
def Op.isDo : Op → Bool
  | Op.Do _ => true
  | _ => false

/-- The graphics-stack length along a stream: `q` pushes, `Q` pops unless
the stack is empty (`Nat` subtraction), all other operators leave it
unchanged. -/
def stackLenRun (n : Nat) : List Op → Nat
  | [] => n
  | op :: ops =>
    stackLenRun (if op.isq then n + 1 else if op.isQ then n - 1 else n) ops

end

end Interp

namespace PDF

/-- The crop-claim as frozen, instantiated at one page and one bbox: crop
keeps exactly the chars whose bounding box intersects the bbox.  `c5char`'s
bbox intersects `c5bbox`, yet `crop` drops it (neither tested corner lies
inside), so the claim is false. -/
theorem c5_counterexample :
    c5char ∈ c5page.chars ∧ c5bbox.intersects c5char.bbox ∧
      c5char ∉ (c5page.crop c5bbox).chars := by
  refine ⟨by decide, by decide, ?_⟩
  decide

/-- Amended crop/within characterization: `crop` keeps lines, rects and
curves whose bbox intersects the crop box, and chars having the
`(x0, top)` or `(x1, bottom)` corner inside it; `within_bbox` keeps
exactly the primitives fully contained. -/
theorem c5_crop_within_characterization (p : Page) (bbox : BBox) :
    (∀ ch, ch ∈ (p.crop bbox).chars ↔
      ch ∈ p.chars ∧ (bbox.contains_point ch.x0 ch.top ∨ bbox.contains_point ch.x1 ch.bottom)) ∧
    (∀ l, l ∈ (p.crop bbox).lines ↔ l ∈ p.lines ∧ bbox.intersects l.bbox) ∧
    (∀ r, r ∈ (p.crop bbox).rects ↔ r ∈ p.rects ∧ bbox.intersects r.bbox) ∧
    (∀ cu, cu ∈ (p.crop bbox).curves ↔ cu ∈ p.curves ∧ bbox.intersects cu.bbox) ∧
    (∀ ch, ch ∈ (p.within_bbox bbox).chars ↔ ch ∈ p.chars ∧ bbox.contains_bbox ch.bbox) ∧
    (∀ l, l ∈ (p.within_bbox bbox).lines ↔ l ∈ p.lines ∧ bbox.contains_bbox l.bbox) ∧
    (∀ r, r ∈ (p.within_bbox bbox).rects ↔ r ∈ p.rects ∧ bbox.contains_bbox r.bbox) ∧
    (∀ cu, cu ∈ (p.within_bbox bbox).curves ↔ cu ∈ p.curves ∧ bbox.contains_bbox cu.bbox) := by
  refine ⟨?_, ?_, ?_, ?_, ?_, ?_, ?_, ?_⟩ <;>
    intro x <;>
    simp [Page.crop, Page.within_bbox, List.mem_filter, decide_eq_true_iff,
      Bool.or_eq_true]

end PDF

namespace Interp

/-- Font decoding precedence: the ToUnicode map wins over any encoding;
with no ToUnicode entry the encoding is used; below 128 with neither, the
raw ASCII character; otherwise U+FFFD. -/
theorem c2_decode_char_precedence (fi : FontInfo) (code : Nat) :
    (∀ s, fi.to_unicode.lookup code = some s → fi.decode_char code = s) ∧
    (fi.to_unicode.lookup code = none →
      ∀ ch, fi.encoding code = some ch → fi.decode_char code = ch.toString) ∧
    (fi.to_unicode.lookup code = none → fi.encoding code = none → code < 128 →
      fi.decode_char code = (Char.ofNat code).toString) ∧
    (fi.to_unicode.lookup code = none → fi.encoding code = none → ¬ code < 128 →
      fi.decode_char code = "�") := by
  refine ⟨?_, ?_, ?_, ?_⟩
  · intro s hs
    simp [FontInfo.decode_char, hs]
  · intro hnone ch hch
    simp [FontInfo.decode_char, hnone, hch]
  · intro hnone henc hlt
    simp [FontInfo.decode_char, hnone, henc, hlt]
  · intro hnone henc hge
    simp [FontInfo.decode_char, hnone, henc, hge]

/-- Witness for the decoding-precedence theorem: a font whose ToUnicode
maps 65 to the ligature `ﬁ` while its encoding maps 65 to `Z`; decoding
returns the ToUnicode string. -/
theorem c2_decode_char_precedence_witness :
    (c2font.to_unicode.lookup 65 = some "ﬁ") ∧ c2font.decode_char 65 = "ﬁ" :=
  ⟨rfl, (c2_decode_char_precedence c2font 65).1 "ﬁ" rfl⟩

end Interp

namespace PDF

/-- Every cell of a table built by `table_of_group` has unit spans and
carries the text extracted from its own bbox. -/
theorem table_of_group_cells {page : Page} {s : TableSettings} {g : List CellRect} {t : Table}
    (h : table_of_group page s g = some t) :
    ∀ cell ∈ t.cells, cell.row_span = 1 ∧ cell.col_span = 1 ∧
      cell.text = extract_cell_text page cell.bbox s := by
  cases g with
  | nil => simp [table_of_group] at h
  | cons g0 gs =>
    simp only [table_of_group, Option.some.injEq] at h
    subst h
    intro cell hcell
    simp only [List.mem_map] at hcell
    obtain ⟨cr, _, rfl⟩ := hcell
    exact ⟨rfl, rfl, rfl⟩

/-- Every table in the detector's output comes from `table_of_group`. -/
theorem detect_tables_mem {page : Page} {s : TableSettings} {t : Table}
    (h : t ∈ detect_tables page s) :
    ∃ g, table_of_group page s g = some t := by
  unfold detect_tables at h
  dsimp only at h
  split at h
  · simp at h
  · split at h
    · simp at h
    · split at h
      · simp at h
      · split at h
        · simp at h
        · unfold group_cells_into_tables at h
          split at h
          · simp at h
          · obtain ⟨g, -, hg⟩ := List.mem_filterMap.mp h
            exact ⟨g, hg⟩

/-- `find_tables` and `extract_tables` run the same full pipeline: they
agree on every page and settings, and every cell of every returned table
carries the text extracted from its bbox (no structure-only tables). -/
theorem c10_find_extract_equiv :
    (∀ (page : Page) (settings : TableSettings),
      find_tables page settings = extract_tables page settings) ∧
    (∀ (page : Page) (settings : TableSettings) (t : Table), t ∈ find_tables page settings →
      ∀ cell ∈ t.cells, cell.text = extract_cell_text page cell.bbox settings) := by
  refine ⟨fun _ _ => rfl, ?_⟩
  intro page settings t ht cell hcell
  obtain ⟨g, hg⟩ := detect_tables_mem (t := t) ht
  exact (table_of_group_cells hg cell hcell).2.2

end PDF

namespace PDF

unseal Rat.add Rat.mul Rat.sub Rat.inv in
/-- Witness: on the one-rect page the detector returns `c6table`, and its
single cell's text is the text extracted from the cell bbox. -/
theorem c10_find_extract_equiv_witness :
    c6table ∈ find_tables c6page TableSettings.default ∧
      ({ row := 0, col := 0, row_span := 1, col_span := 1, text := "",
          bbox := BBox.new 0 0 100 50 } : TableCell).text =
        extract_cell_text c6page (BBox.new 0 0 100 50) TableSettings.default :=
  ⟨by decide,
    c10_find_extract_equiv.2 c6page TableSettings.default c6table (by decide) _ (by decide)⟩

end PDF

namespace PDF

/-- Row lookup of an in-range index is a member of the grid. -/
theorem rowMem {g : List (List (Option String))} {r : Nat} (h : r < g.length) :
    g.getD r [] ∈ g := by
  rw [List.getD_eq_getElem?_getD, List.getElem?_eq_getElem h, Option.getD_some]
  exact List.getElem_mem h

/-- `gridSet` writes one slot and leaves every other slot unchanged
(rows of width `cc`, target slot in range). -/
theorem gval_gridSet {g : List (List (Option String))} {cc : Nat}
    (hrows : ∀ row ∈ g, row.length = cc) {r' c' : Nat} (v : Option String)
    (hr' : r' < g.length) (hc' : c' < cc) (r c : Nat) :
    gval (gridSet g r' c' v) r c = if r' = r ∧ c' = c then v else gval g r c := by
  have hrow := rowMem hr'
  unfold gval gridSet
  by_cases hr : r' = r
  · subst hr
    rw [List.getD_eq_getElem?_getD (g.set r' _), List.getElem?_set, if_pos rfl, if_pos hr',
      Option.getD_some]
    by_cases hc : c' = c
    · subst hc
      have hlen : c' < (g.getD r' []).length := by rw [hrows _ hrow]; exact hc'
      rw [List.getD_eq_getElem?_getD, List.getElem?_set, if_pos rfl, if_pos hlen,
        Option.getD_some]
      simp
    · rw [List.getD_eq_getElem?_getD, List.getElem?_set, if_neg hc,
        ← List.getD_eq_getElem?_getD]
      simp [hc]
  · rw [List.getD_eq_getElem?_getD (g.set r' _), List.getElem?_set, if_neg hr,
      ← List.getD_eq_getElem?_getD]
    have : ¬ (r' = r ∧ c' = c) := fun hcon => hr hcon.1
    simp [this]

/-- `gridSet` preserves the grid dimensions. -/
theorem gdims_gridSet {g : List (List (Option String))} {rc cc : Nat}
    (hg : gdims g rc cc) {r' : Nat} (hr' : r' < rc) (c' : Nat) (v : Option String) :
    gdims (gridSet g r' c' v) rc cc := by
  obtain ⟨hlen, hrows⟩ := hg
  refine ⟨by simp [gridSet, hlen], ?_⟩
  intro row hrow
  rcases List.mem_or_eq_of_mem_set hrow with h | h
  · exact hrows _ h
  · subst h
    rw [List.length_set]
    exact hrows _ (rowMem (hlen ▸ hr'))

/-- For a unit-span in-range cell the `to_grid` step is a single slot
write. -/
theorem gridStep_unit {rc cc : Nat} {cell : TableCell}
    (h1 : cell.row_span = 1) (h2 : cell.col_span = 1) (hr : cell.row < rc)
    (hc : cell.col < cc) (g : List (List (Option String))) :
    gridStep rc cc g cell = gridSet g cell.row cell.col (cellTextOpt cell) := by
  have hminr : min (cell.row + cell.row_span) rc - cell.row = 1 := by omega
  have hminc : min (cell.col + cell.col_span) cc - cell.col = 1 := by omega
  simp [gridStep, hr, hc, hminr, hminc, List.range'_one, cellTextOpt]

end PDF

namespace PDF

/-- Folding `gridStep` over unit-span in-range cells: a slot holds the
entry of the last cell written at that position, or the original entry. -/
theorem gval_foldl_gridStep {rc cc : Nat} (cells : List TableCell)
    (hcells : ∀ cell ∈ cells, cell.row_span = 1 ∧ cell.col_span = 1 ∧
      cell.row < rc ∧ cell.col < cc)
    (g : List (List (Option String))) (hg : gdims g rc cc) (r c : Nat) :
    gval (cells.foldl (gridStep rc cc) g) r c =
      match cells.reverse.find? (fun cell => cell.row == r && cell.col == c) with
      | some cell => cellTextOpt cell
      | none => gval g r c := by
  induction cells generalizing g with
  | nil => simp
  | cons x xs ih =>
    obtain ⟨hx1, hx2, hx3, hx4⟩ := hcells x (List.mem_cons_self x xs)
    have hxs : ∀ cell ∈ xs, cell.row_span = 1 ∧ cell.col_span = 1 ∧
        cell.row < rc ∧ cell.col < cc :=
      fun cell hc => hcells cell (List.mem_cons_of_mem _ hc)
    have hg' : gdims (gridStep rc cc g x) rc cc := by
      rw [gridStep_unit hx1 hx2 hx3 hx4]
      exact gdims_gridSet hg hx3 _ _
    rw [List.foldl_cons, ih hxs _ hg']
    rw [List.reverse_cons, List.find?_append]
    cases hfind : xs.reverse.find? (fun cell => cell.row == r && cell.col == c) with
    | some cell => simp [hfind]
    | none =>
      simp only [hfind, Option.none_or]
      rw [gridStep_unit hx1 hx2 hx3 hx4,
        gval_gridSet hg.2 _ (hg.1 ▸ hx3) hx4]
      by_cases hpos : x.row = r ∧ x.col = c
      · rw [if_pos hpos, List.find?_cons_of_pos _ (by simp [hpos.1, hpos.2])]
      · rw [if_neg hpos, List.find?_cons_of_neg _ (by
          simp only [Bool.and_eq_true, beq_iff_eq]
          exact fun hcon => hpos hcon)]
        simp

/-- The empty grid holds `none` everywhere. -/
theorem gval_replicate (rc cc r c : Nat) :
    gval (List.replicate rc (List.replicate cc (none : Option String))) r c = none := by
  simp only [gval, List.getD_eq_getElem?_getD, List.getElem?_replicate]
  by_cases h : r < rc
  · simp only [if_pos h, Option.getD_some, List.getD_eq_getElem?_getD,
      List.getElem?_replicate]
    by_cases h' : c < cc <;> simp [h']
  · simp [h]

end PDF

namespace PDF

unseal Rat.add Rat.mul Rat.sub Rat.inv in
/-- The grid-projection claim as frozen is false on the code: the detector
finds a one-cell table on the one-rect page (a non-merged table with a
cell at `(0, 0)`), yet `to_grid` holds `None` there, because the cell's
extracted text is empty and `to_grid` maps empty text to `None`. -/
theorem c6_counterexample :
    c6table ∈ detect_tables c6page TableSettings.default ∧
      (∀ cell ∈ c6table.cells, cell.row_span = 1 ∧ cell.col_span = 1) ∧
      (∃ cell ∈ c6table.cells, cell.row = 0 ∧ cell.col = 0) ∧
      gval c6table.to_grid 0 0 = none := by
  refine ⟨by decide, by decide, ⟨c6table.cells.getD 0 ⟨0, 0, 1, 1, "", BBox.default⟩,
    by decide, by decide, by decide⟩, by decide⟩

/-- Amended grid projection: for a table of unit-span cells at pairwise
distinct in-range positions, `grid[r][c]` is `Some` exactly when the table
has a cell at `(r, c)` with non-empty text; and for every table the
detector produces, all cells have unit spans and `row_count`/`col_count`
are the lengths of the sorted tolerance-deduplicated lists of the cells'
`top` and `x0` coordinates. -/
theorem c6_grid_characterization :
    (∀ t : Table,
      (∀ cell ∈ t.cells, cell.row_span = 1 ∧ cell.col_span = 1 ∧
        cell.row < t.row_count ∧ cell.col < t.col_count) →
      t.cells.Pairwise (fun a b => ¬ (a.row = b.row ∧ a.col = b.col)) →
      ∀ r c, (gval t.to_grid r c).isSome ↔
        ∃ cell ∈ t.cells, cell.row = r ∧ cell.col = c ∧ cell.text ≠ "") ∧
    (∀ (page : Page) (s : TableSettings) (t : Table), t ∈ detect_tables page s →
      (∀ cell ∈ t.cells, cell.row_span = 1 ∧ cell.col_span = 1) ∧
      t.row_count = (dedupBy (fun a b => decide (|a - b| < s.intersection_y))
        ((t.cells.map fun cell => cell.bbox.top).insertionSort fun a b => a ≤ b)).length ∧
      t.col_count = (dedupBy (fun a b => decide (|a - b| < s.intersection_x))
        ((t.cells.map fun cell => cell.bbox.x0).insertionSort fun a b => a ≤ b)).length) := by
  constructor
  · intro t hunit hdist r c
    have hchar := gval_foldl_gridStep t.cells hunit
      (List.replicate t.row_count (List.replicate t.col_count none))
      ⟨by simp, by intro row hrow; simp [List.eq_of_mem_replicate hrow]⟩ r c
    rw [Table.to_grid, hchar]
    constructor
    · intro hsome
      cases hfind : t.cells.reverse.find? (fun cell => cell.row == r && cell.col == c) with
      | none => rw [hfind] at hsome; simp [gval_replicate] at hsome
      | some cell =>
        rw [hfind] at hsome
        have hmem : cell ∈ t.cells := List.mem_reverse.mp (List.mem_of_find?_eq_some hfind)
        have hpos := List.find?_some hfind
        simp only [Bool.and_eq_true, beq_iff_eq] at hpos
        refine ⟨cell, hmem, hpos.1, hpos.2, ?_⟩
        intro hempty
        simp only [cellTextOpt] at hsome
        simp [hempty] at hsome
        exact absurd hsome (by decide)
    · rintro ⟨cell, hmem, hr, hc, htext⟩
      have hex : ∃ x, t.cells.reverse.find? (fun cell => cell.row == r && cell.col == c)
          = some x := by
        rcases hx : t.cells.reverse.find? (fun cell => cell.row == r && cell.col == c) with
          _ | x
        · exfalso
          have := List.find?_eq_none.mp hx cell (List.mem_reverse.mpr hmem)
          simp [hr, hc] at this
        · exact ⟨x, hx⟩
      obtain ⟨x, hx⟩ := hex
      have hxmem : x ∈ t.cells := List.mem_reverse.mp (List.mem_of_find?_eq_some hx)
      have hxpos := List.find?_some hx
      simp only [Bool.and_eq_true, beq_iff_eq] at hxpos
      have hsym : Symmetric (fun a b : TableCell => ¬ (a.row = b.row ∧ a.col = b.col)) :=
        fun a b hab hcon => hab ⟨hcon.1.symm, hcon.2.symm⟩
      have hxy : x = cell := by
        by_contra hne
        exact (hdist.forall hsym hxmem hmem hne)
          ⟨hxpos.1.trans hr.symm, hxpos.2.trans hc.symm⟩
      rw [hx, hxy]
      simp only [cellTextOpt]
      rw [if_neg (by simpa [String.isEmpty_iff] using htext)]
      simp
  · intro page s t ht
    obtain ⟨g, hg⟩ := detect_tables_mem ht
    cases g with
    | nil => simp [table_of_group] at hg
    | cons g0 gs =>
      simp only [table_of_group, Option.some.injEq] at hg
      subst hg
      refine ⟨?_, ?_, ?_⟩
      · intro cell hcell
        simp only [List.mem_map] at hcell
        obtain ⟨cr, -, rfl⟩ := hcell
        exact ⟨rfl, rfl⟩
      · simp only [List.map_map]
        rfl
      · simp only [List.map_map]
        rfl

end PDF

namespace PDF

unseal Rat.add Rat.mul Rat.sub Rat.inv in
/-- Witness for the amended grid projection, at the detector's table on
the one-rect page. -/
theorem c6_grid_characterization_witness :
    ((∀ cell ∈ c6table.cells, cell.row_span = 1 ∧ cell.col_span = 1 ∧
        cell.row < c6table.row_count ∧ cell.col < c6table.col_count) ∧
      ((gval c6table.to_grid 0 0).isSome ↔
        ∃ cell ∈ c6table.cells, cell.row = 0 ∧ cell.col = 0 ∧ cell.text ≠ "")) ∧
    (c6table ∈ detect_tables c6page TableSettings.default ∧
      (∀ cell ∈ c6table.cells, cell.row_span = 1 ∧ cell.col_span = 1) ∧
      c6table.row_count =
        (dedupBy (fun a b => decide (|a - b| < TableSettings.default.intersection_y))
          ((c6table.cells.map fun cell => cell.bbox.top).insertionSort
            fun a b => a ≤ b)).length ∧
      c6table.col_count =
        (dedupBy (fun a b => decide (|a - b| < TableSettings.default.intersection_x))
          ((c6table.cells.map fun cell => cell.bbox.x0).insertionSort
            fun a b => a ≤ b)).length) :=
  ⟨⟨by decide, c6_grid_characterization.1 c6table (by decide) (by decide) 0 0⟩,
    by decide,
    c6_grid_characterization.2 c6page TableSettings.default c6table (by decide)⟩

end PDF

namespace PDF

unseal Rat.add Rat.mul Rat.sub Rat.inv in
/-- The snapping-idempotence claim as frozen is false on the code: for the
two overlapping non-flat horizontal edges built by `Edge::new`, the first
snap leaves the anchor's `bottom` untouched, and the second snap (under a
different tie order) rewrites it, so snapping twice differs from snapping
once. -/
theorem c9_counterexample :
    c9edge1.is_horizontal = true ∧ c9edge2.is_horizontal = true ∧
      snap_edges 3 2 (snap_edges 3 2 [c9edge1, c9edge2]) ≠
        snap_edges 3 2 [c9edge1, c9edge2] := by
  decide

end PDF

namespace PDF

/-- Separation is inherited by sublists (as sets). -/
theorem SepKeys.mono {tol : ℚ} {ks ks' : List ℚ} (h : SepKeys tol ks)
    (hsub : ∀ x ∈ ks', x ∈ ks) : SepKeys tol ks' :=
  fun a ha b hb hab => h a (hsub a ha) b (hsub b hb) hab

section SnapAbstract

variable {tol : ℚ} {key : Edge → ℚ} {upd : Edge → ℚ → Edge} {flatP : Edge → Prop}

/-- The snap pass does not change the index tags. -/
theorem snapRunGo_map_fst (base : ℚ) (l : List (Nat × Edge)) :
    (snapRunGo tol key upd base l).map Prod.fst = l.map Prod.fst := by
  induction l generalizing base with
  | nil => rfl
  | cons p rest ih =>
    by_cases h : |key p.2 - base| ≤ tol <;> simp [snapRunGo, h, ih]

/-- Edges written by the snap pass stay in the flat class. -/
theorem snapRunGo_flat (hflatupd : ∀ e b, flatP (upd e b)) (base : ℚ)
    {l : List (Nat × Edge)} (hl : ∀ p ∈ l, flatP p.2) :
    ∀ q ∈ snapRunGo tol key upd base l, flatP q.2 := by
  induction l generalizing base with
  | nil => simp [snapRunGo]
  | cons p rest ih =>
    have hrest : ∀ p ∈ rest, flatP p.2 := fun q hq => hl q (List.mem_cons_of_mem _ hq)
    by_cases h : |key p.2 - base| ≤ tol
    · simp only [snapRunGo, if_pos h]
      intro q hq
      rw [List.mem_cons] at hq
      rcases hq with rfl | hq
      · exact hflatupd _ _
      · exact ih _ hrest q hq
    · simp only [snapRunGo, if_neg h]
      intro q hq
      rw [List.mem_cons] at hq
      rcases hq with rfl | hq
      · exact hl q (List.mem_cons_self _ _)
      · exact ih _ hrest q hq

/-- The snap pass preserves the orientation of every edge. -/
theorem snapRunGo_class (hori : ∀ e b, (upd e b).orientation = e.orientation)
    {o : Orientation} (base : ℚ) {l : List (Nat × Edge)}
    (hl : ∀ p ∈ l, p.2.orientation = o) :
    ∀ q ∈ snapRunGo tol key upd base l, q.2.orientation = o := by
  induction l generalizing base with
  | nil => simp [snapRunGo]
  | cons p rest ih =>
    have hrest : ∀ p ∈ rest, p.2.orientation = o :=
      fun q hq => hl q (List.mem_cons_of_mem _ hq)
    by_cases h : |key p.2 - base| ≤ tol
    · simp only [snapRunGo, if_pos h]
      intro q hq
      rw [List.mem_cons] at hq
      rcases hq with rfl | hq
      · rw [hori]; exact hl p (List.mem_cons_self _ _)
      · exact ih _ hrest q hq
    · simp only [snapRunGo, if_neg h]
      intro q hq
      rw [List.mem_cons] at hq
      rcases hq with rfl | hq
      · exact hl q (List.mem_cons_self _ _)
      · exact ih _ hrest q hq

/-- Keys after the snap pass: all at least the anchor, and `tol`-separated
together with the anchor. -/
theorem snapRunGo_keys (hku : ∀ e b, key (upd e b) = b) {base : ℚ}
    {l : List (Nat × Edge)} (hsort : l.Sorted fun p q => key p.2 ≤ key q.2)
    (hbase : ∀ p ∈ l, base ≤ key p.2) :
    (∀ q ∈ snapRunGo tol key upd base l, base ≤ key q.2) ∧
      SepKeys tol (base :: (snapRunGo tol key upd base l).map fun q => key q.2) := by
  induction l generalizing base with
  | nil =>
    refine ⟨by simp [snapRunGo], ?_⟩
    intro a ha b hb _
    simp only [snapRunGo, List.map_nil, List.mem_singleton] at ha hb
    rw [ha, hb]
  | cons p rest ih =>
    have hsort' : rest.Sorted fun p q => key p.2 ≤ key q.2 := hsort.of_cons
    have hhead : ∀ q ∈ rest, key p.2 ≤ key q.2 := by
      intro q hq
      exact (List.sorted_cons.mp hsort).1 q hq
    have hbase' : ∀ q ∈ rest, base ≤ key q.2 :=
      fun q hq => hbase q (List.mem_cons_of_mem _ hq)
    by_cases h : |key p.2 - base| ≤ tol
    · obtain ⟨ihb, ihs⟩ := ih hsort' hbase'
      constructor
      · simp only [snapRunGo, if_pos h]
        intro q hq
        rw [List.mem_cons] at hq
        rcases hq with rfl | hq
        · rw [hku]
        · exact ihb q hq
      · simp only [snapRunGo, if_pos h, List.map_cons, hku]
        refine ihs.mono ?_
        intro x hx
        simp only [List.mem_cons] at hx ⊢
        tauto
    · have hp : base ≤ key p.2 := hbase p (List.mem_cons_self _ _)
      have hgt : key p.2 - base > tol := by
        rw [abs_of_nonneg (by linarith)] at h
        linarith [not_le.mp h]
      obtain ⟨ihb, ihs⟩ := @ih (key p.2) hsort' hhead
      constructor
      · simp only [snapRunGo, if_neg h]
        intro q hq
        rw [List.mem_cons] at hq
        rcases hq with rfl | hq
        · exact hp
        · linarith [ihb q hq]
      · simp only [snapRunGo, if_neg h, List.map_cons]
        intro a ha b hb hab
        rcases List.mem_cons.mp ha with rfl | ha'
        · rcases List.mem_cons.mp hb with rfl | hb'
          · rfl
          · exfalso
            have hbge : key p.2 ≤ b := by
              rcases List.mem_cons.mp hb' with rfl | hb''
              · exact le_refl _
              · obtain ⟨q, hq, rfl⟩ := List.mem_map.mp hb''
                exact ihb q hq
            rw [abs_sub_comm, abs_of_nonneg (by linarith)] at hab
            linarith
        · rcases List.mem_cons.mp hb with rfl | hb'
          · exfalso
            have hage : key p.2 ≤ a := by
              rcases List.mem_cons.mp ha' with rfl | ha''
              · exact le_refl _
              · obtain ⟨q, hq, rfl⟩ := List.mem_map.mp ha''
                exact ihb q hq
            rw [abs_of_nonneg (by linarith)] at hab
            linarith
          · exact ihs a ha' b hb' hab

/-- On flat edges with separated keys the snap pass is the identity. -/
theorem snapRunGo_id (hku : ∀ e b, key (upd e b) = b)
    (hid : ∀ e, flatP e → upd e (key e) = e) {base : ℚ} {l : List (Nat × Edge)}
    (hflat : ∀ p ∈ l, flatP p.2)
    (hsep : SepKeys tol (base :: l.map fun q => key q.2)) :
    snapRunGo tol key upd base l = l := by
  induction l generalizing base with
  | nil => rfl
  | cons p rest ih =>
    have hflat' : ∀ q ∈ rest, flatP q.2 := fun q hq => hflat q (List.mem_cons_of_mem _ hq)
    by_cases h : |key p.2 - base| ≤ tol
    · have heq : key p.2 = base :=
        hsep (key p.2) (List.mem_cons_of_mem _ (List.mem_cons_self _ _)) base
          (List.mem_cons_self _ _) h
      have : upd p.2 base = p.2 := by
        rw [← heq]
        exact hid p.2 (hflat p (List.mem_cons_self _ _))
      simp only [snapRunGo, if_pos h, this]
      rw [ih hflat' (hsep.mono ?_)]
      intro x hx
      rcases List.mem_cons.mp hx with rfl | hx'
      · exact List.mem_cons_self _ _
      · exact List.mem_cons_of_mem _ (List.mem_cons_of_mem _ hx')
    · simp only [snapRunGo, if_neg h]
      rw [ih hflat' (hsep.mono ?_)]
      intro x hx
      rcases List.mem_cons.mp hx with rfl | hx'
      · exact List.mem_cons_of_mem _ (List.mem_cons_self _ _)
      · exact List.mem_cons_of_mem _ (List.mem_cons_of_mem _ hx')

/-- `snapRun` does not change the index tags. -/
theorem snapRun_map_fst (l : List (Nat × Edge)) :
    (snapRun tol key upd l).map Prod.fst = l.map Prod.fst := by
  cases l with
  | nil => rfl
  | cons p rest => simp [snapRun, snapRunGo_map_fst]

/-- `snapRun` keeps flat edges flat. -/
theorem snapRun_flat (hflatupd : ∀ e b, flatP (upd e b)) {l : List (Nat × Edge)}
    (hl : ∀ p ∈ l, flatP p.2) : ∀ q ∈ snapRun tol key upd l, flatP q.2 := by
  cases l with
  | nil => simp [snapRun]
  | cons p rest =>
    have hrest : ∀ q ∈ rest, flatP q.2 := fun q hq => hl q (List.mem_cons_of_mem _ hq)
    simp only [snapRun]
    intro q hq
    rw [List.mem_cons] at hq
    rcases hq with rfl | hq
    · exact hl q (List.mem_cons_self _ _)
    · exact snapRunGo_flat hflatupd _ hrest q hq

/-- `snapRun` preserves the orientation of every edge. -/
theorem snapRun_class (hori : ∀ e b, (upd e b).orientation = e.orientation)
    {o : Orientation} {l : List (Nat × Edge)} (hl : ∀ p ∈ l, p.2.orientation = o) :
    ∀ q ∈ snapRun tol key upd l, q.2.orientation = o := by
  cases l with
  | nil => simp [snapRun]
  | cons p rest =>
    have hrest : ∀ q ∈ rest, q.2.orientation = o :=
      fun q hq => hl q (List.mem_cons_of_mem _ hq)
    simp only [snapRun]
    intro q hq
    rw [List.mem_cons] at hq
    rcases hq with rfl | hq
    · exact hl q (List.mem_cons_self _ _)
    · exact snapRunGo_class hori _ hrest q hq

/-- The keys of a snapped sorted run are `tol`-separated. -/
theorem snapRun_keys (hku : ∀ e b, key (upd e b) = b) {l : List (Nat × Edge)}
    (hsort : l.Sorted fun p q => key p.2 ≤ key q.2) :
    SepKeys tol ((snapRun tol key upd l).map fun q => key q.2) := by
  cases l with
  | nil => intro a ha; simp [snapRun] at ha
  | cons p rest =>
    have hkeys : (∀ q ∈ snapRunGo tol key upd (key p.2) rest, key p.2 ≤ key q.2) ∧
        SepKeys tol (key p.2 :: (snapRunGo tol key upd (key p.2) rest).map fun q => key q.2) :=
      snapRunGo_keys hku hsort.of_cons (fun q hq => (List.sorted_cons.mp hsort).1 q hq)
    simpa [snapRun] using hkeys.2

/-- On flat edges with separated keys `snapRun` is the identity. -/
theorem snapRun_id (hku : ∀ e b, key (upd e b) = b)
    (hid : ∀ e, flatP e → upd e (key e) = e) {l : List (Nat × Edge)}
    (hflat : ∀ p ∈ l, flatP p.2)
    (hsep : SepKeys tol (l.map fun q => key q.2)) :
    snapRun tol key upd l = l := by
  cases l with
  | nil => rfl
  | cons p rest =>
    simp only [snapRun]
    rw [snapRunGo_id hku hid (fun q hq => hflat q (List.mem_cons_of_mem _ hq))
      (hsep.mono ?_)]
    intro x hx
    exact hx

end SnapAbstract

end PDF

namespace PDF

/-- Horizontality as a proposition on the orientation field. -/
theorem is_horizontal_iff {e : Edge} :
    e.is_horizontal = true ↔ e.orientation = Orientation.Horizontal := by
  simp [Edge.is_horizontal]

/-- Verticality as a proposition on the orientation field. -/
theorem is_vertical_iff {e : Edge} :
    e.is_vertical = true ↔ e.orientation = Orientation.Vertical := by
  simp [Edge.is_vertical]

/-- Every edge is horizontal or vertical, never both. -/
theorem is_vertical_eq_not (e : Edge) : e.is_vertical = !e.is_horizontal := by
  cases h : e.orientation <;>
    simp [Edge.is_vertical, Edge.is_horizontal, h]

/-- Association-list lookup with distinct keys finds the stored value. -/
theorem lookup_nodup {L : List (Nat × Edge)} (hnd : (L.map Prod.fst).Nodup)
    {i : Nat} {x : Edge} (hmem : (i, x) ∈ L) : L.lookup i = some x := by
  induction L with
  | nil => cases hmem
  | cons q Lt ih =>
    obtain ⟨k, v⟩ := q
    rw [List.map_cons, List.nodup_cons] at hnd
    rw [List.mem_cons] at hmem
    rcases hmem with heq | hmem
    · obtain ⟨rfl, rfl⟩ := Prod.mk.injEq .. ▸ heq
      simp [List.lookup]
    · have hne : ¬ (i == k) = true := by
        simp only [beq_iff_eq]
        rintro rfl
        exact hnd.1 (List.mem_map.mpr ⟨(i, x), hmem, rfl⟩)
      simp only [List.lookup, hne]
      exact ih hnd.2 hmem

/-- Looking up an index of `es.enum` through any sublist of `es.enum`
returns the edge at that index (or the default, which is that edge). -/
theorem lookup_sub_enum {es : List Edge} {L : List (Nat × Edge)}
    (hsub : ∀ q ∈ L, q ∈ es.enum) {i : Nat} {x : Edge} (hmem : (i, x) ∈ es.enum) :
    (L.lookup i).getD x = x := by
  induction L with
  | nil => rfl
  | cons q Lt ih =>
    obtain ⟨k, v⟩ := q
    by_cases hk : (i == k) = true
    · rw [beq_iff_eq] at hk
      subst hk
      have h1 : es[i]? = some v := List.mem_enum_iff_getElem?.mp (hsub (i, v) (List.mem_cons_self _ _))
      have h2 : es[i]? = some x := List.mem_enum_iff_getElem?.mp hmem
      rw [h1] at h2
      simp only [List.lookup, beq_self_eq_true, Option.getD_some]
      exact (Option.some.injEq .. ▸ h2)
    · simp only [List.lookup, hk]
      exact ih fun q hq => hsub q (List.mem_cons_of_mem _ hq)

/-- `snap_edges` unfolded: snap the sorted horizontal and vertical runs,
then write the snapped edges back by index. -/
theorem snap_edges_eq (xt yt : ℚ) (edges : List Edge) :
    snap_edges xt yt edges =
      edges.enum.map (fun p =>
        (((snapRun yt (fun e => e.top) snapUpdH
            ((edges.enum.filter fun p => p.2.is_horizontal).insertionSort
              fun a b => a.2.top ≤ b.2.top)) ++
          (snapRun xt (fun e => e.x0) snapUpdV
            ((edges.enum.filter fun p => p.2.is_vertical).insertionSort
              fun a b => a.2.x0 ≤ b.2.x0))).lookup p.1).getD p.2) := rfl

end PDF

namespace PDF

/-- All first-pass facts about one orientation's snapped run: preserved
index tags, flatness, orientation, tolerance-separated keys, and the
permutation with the filtered input. -/
theorem snap_side_facts {tol : ℚ} {key : Edge → ℚ} {upd : Edge → ℚ → Edge}
    {flatP : Edge → Prop} {o : Orientation} {pred : Edge → Bool} {edges : List Edge}
    (hku : ∀ e b, key (upd e b) = b)
    (hflatupd : ∀ e b, flatP (upd e b))
    (hori : ∀ e b, (upd e b).orientation = e.orientation)
    (hpredo : ∀ e : Edge, pred e = true ↔ e.orientation = o)
    (hedges : ∀ e ∈ edges, pred e = true → flatP e) :
    (snapRun tol key upd
        ((edges.enum.filter fun p => pred p.2).insertionSort
          fun a b => key a.2 ≤ key b.2)).map Prod.fst =
      ((edges.enum.filter fun p => pred p.2).insertionSort
        fun a b => key a.2 ≤ key b.2).map Prod.fst ∧
    (∀ q ∈ snapRun tol key upd
        ((edges.enum.filter fun p => pred p.2).insertionSort
          fun a b => key a.2 ≤ key b.2), flatP q.2) ∧
    (∀ q ∈ snapRun tol key upd
        ((edges.enum.filter fun p => pred p.2).insertionSort
          fun a b => key a.2 ≤ key b.2), q.2.orientation = o) ∧
    SepKeys tol ((snapRun tol key upd
        ((edges.enum.filter fun p => pred p.2).insertionSort
          fun a b => key a.2 ≤ key b.2)).map fun q => key q.2) ∧
    ((edges.enum.filter fun p => pred p.2).insertionSort
        fun a b => key a.2 ≤ key b.2).Perm (edges.enum.filter fun p => pred p.2) := by
  haveI htot : IsTotal (Nat × Edge) (fun p q => key p.2 ≤ key q.2) :=
    ⟨fun a b => le_total _ _⟩
  haveI htrans : IsTrans (Nat × Edge) (fun p q => key p.2 ≤ key q.2) :=
    ⟨fun a b c hab hbc => le_trans hab hbc⟩
  have hperm := List.perm_insertionSort (fun p q : Nat × Edge => key p.2 ≤ key q.2)
    (edges.enum.filter fun p => pred p.2)
  have hsort := List.sorted_insertionSort (fun p q : Nat × Edge => key p.2 ≤ key q.2)
    (edges.enum.filter fun p => pred p.2)
  have hmemflat : ∀ p ∈ (edges.enum.filter fun p => pred p.2).insertionSort
      (fun a b => key a.2 ≤ key b.2), flatP p.2 := by
    intro p hp
    have hpf := hperm.subset hp
    rw [List.mem_filter] at hpf
    have hedge : p.2 ∈ edges := by
      exact List.getElem?_mem (List.mem_enum_iff_getElem?.mp hpf.1)
    exact hedges p.2 hedge hpf.2
  have hmemori : ∀ p ∈ (edges.enum.filter fun p => pred p.2).insertionSort
      (fun a b => key a.2 ≤ key b.2), p.2.orientation = o := by
    intro p hp
    have hpf := hperm.subset hp
    rw [List.mem_filter] at hpf
    exact (hpredo p.2).mp hpf.2
  exact ⟨snapRun_map_fst _, snapRun_flat hflatupd hmemflat,
    snapRun_class hori hmemori, snapRun_keys hku hsort, hperm⟩

end PDF

namespace PDF

/-- Amended snapping idempotence: on flat edge sets (horizontal edges with
`top = bottom`, vertical edges with `x0 = x1`, as the detector always
builds them) `snap_edges` is idempotent for every pair of tolerances. -/
theorem c9_snap_idempotent_flat (x_tol y_tol : ℚ) {edges : List Edge}
    (hflat : flatEdges edges) :
    snap_edges x_tol y_tol (snap_edges x_tol y_tol edges) = snap_edges x_tol y_tol edges := by
  obtain ⟨hHfst, hHflat, hHori, hHsep, hHperm⟩ :=
    @snap_side_facts y_tol (fun e => e.top) snapUpdH
      (fun e => e.top = e.bottom) Orientation.Horizontal
      (fun e => e.is_horizontal) edges
      (fun _ _ => rfl) (fun _ _ => rfl) (fun _ _ => rfl)
      (fun _ => is_horizontal_iff)
      (fun e he hp => (hflat e he).1 hp)
  obtain ⟨hVfst, hVflat, hVori, hVsep, hVperm⟩ :=
    @snap_side_facts x_tol (fun e => e.x0) snapUpdV
      (fun e => e.x0 = e.x1) Orientation.Vertical
      (fun e => e.is_vertical) edges
      (fun _ _ => rfl) (fun _ _ => rfl) (fun _ _ => rfl)
      (fun _ => is_vertical_iff)
      (fun e he hp => (hflat e he).2 hp)
  set fH := edges.enum.filter (fun p => p.2.is_horizontal) with hfHdef
  set fV := edges.enum.filter (fun p => p.2.is_vertical) with hfVdef
  set sH := fH.insertionSort (fun a b => a.2.top ≤ b.2.top) with hsHdef
  set sV := fV.insertionSort (fun a b => a.2.x0 ≤ b.2.x0) with hsVdef
  set hS := snapRun y_tol (fun e => e.top) snapUpdH sH with hhSdef
  set vS := snapRun x_tol (fun e => e.x0) snapUpdV sV with hvSdef
  set es' := snap_edges x_tol y_tol edges with hes'
  have hes'eq : es' = edges.enum.map
      (fun p => ((hS ++ vS).lookup p.1).getD p.2) := by
    rw [hes', snap_edges_eq]
  -- distinct keys in the first-pass write-back list
  have hnodup : ((hS ++ vS).map Prod.fst).Nodup := by
    rw [List.map_append, hHfst, hVfst]
    have hperm2 : (sH.map Prod.fst ++ sV.map Prod.fst).Perm
        ((fH ++ fV).map Prod.fst) := by
      rw [List.map_append]
      exact (hHperm.map _).append (hVperm.map _)
    have hfv : fV = edges.enum.filter (fun p => !(p.2.is_horizontal)) :=
      List.filter_congr (fun p _ => by rw [is_vertical_eq_not])
    have hperm3 : (fH ++ fV).Perm edges.enum := by
      rw [hfHdef, hfv]
      exact List.filter_append_perm _ _
    have : ((fH ++ fV).map Prod.fst).Nodup := by
      rw [(hperm3.map Prod.fst).nodup_iff, List.enum_map_fst]
      exact List.nodup_range _
    exact (hperm2.nodup_iff).mpr this
  -- every edge of es' at index i is the L-entry with key i
  have hchar : ∀ i x, (i, x) ∈ es'.enum →
      (∃ q ∈ hS, q.1 = i ∧ q.2 = x) ∨ (∃ q ∈ vS, q.1 = i ∧ q.2 = x) := by
    intro i x hix
    have hx : es'[i]? = some x := List.mem_enum_iff_getElem?.mp hix
    rw [hes'eq, List.getElem?_map, List.getElem?_enum] at hx
    rcases he : edges[i]? with _ | e
    · rw [he] at hx; cases hx
    · rw [he] at hx
      simp only [Option.map_some', Option.some.injEq] at hx
      have hmeme : e ∈ edges := List.getElem?_mem he
      have hmemenum : (i, e) ∈ edges.enum := List.mem_enum_iff_getElem?.mpr he
      rcases hor : e.orientation with _ | _
      · left
        have hin : (i, e) ∈ fH := by
          rw [hfHdef, List.mem_filter]
          exact ⟨hmemenum, is_horizontal_iff.mpr hor⟩
        have : i ∈ hS.map Prod.fst := by
          rw [hHfst]
          exact List.mem_map.mpr ⟨(i, e), hHperm.mem_iff.mpr hin, rfl⟩
        obtain ⟨q, hq, hq1⟩ := List.mem_map.mp this
        have hlook : (hS ++ vS).lookup i = some q.2 := by
          apply lookup_nodup hnodup
          apply List.mem_append_left
          have : q = (i, q.2) := by rw [← hq1]
          rw [← this]
          exact hq
        refine ⟨q, hq, hq1, ?_⟩
        rw [← hx, hlook, Option.getD_some]
      · right
        have hin : (i, e) ∈ fV := by
          rw [hfVdef, List.mem_filter]
          exact ⟨hmemenum, is_vertical_iff.mpr hor⟩
        have : i ∈ vS.map Prod.fst := by
          rw [hVfst]
          exact List.mem_map.mpr ⟨(i, e), hVperm.mem_iff.mpr hin, rfl⟩
        obtain ⟨q, hq, hq1⟩ := List.mem_map.mp this
        have hlook : (hS ++ vS).lookup i = some q.2 := by
          apply lookup_nodup hnodup
          apply List.mem_append_right
          have : q = (i, q.2) := by rw [← hq1]
          rw [← this]
          exact hq
        refine ⟨q, hq, hq1, ?_⟩
        rw [← hx, hlook, Option.getD_some]
  -- first-pass entries land in es'.enum
  have hconvH : ∀ q ∈ hS, q ∈ es'.enum := by
    intro q hq
    have hq1 : q.1 ∈ sH.map Prod.fst := by rw [← hHfst]; exact List.mem_map.mpr ⟨q, hq, rfl⟩
    obtain ⟨p, hp, hp1⟩ := List.mem_map.mp hq1
    have hpenum : p ∈ edges.enum := by
      have := hHperm.subset hp
      rw [hfHdef, List.mem_filter] at this
      exact this.1
    have hpget : edges[p.1]? = some p.2 := List.mem_enum_iff_getElem?.mp hpenum
    have hlook : (hS ++ vS).lookup q.1 = some q.2 :=
      lookup_nodup hnodup (List.mem_append_left _ hq)
    have : es'[q.1]? = some q.2 := by
      rw [hes'eq, List.getElem?_map, List.getElem?_enum, ← hp1, hpget]
      simp only [Option.map_some', Option.some.injEq]
      rw [hp1, hlook, Option.getD_some]
    exact List.mem_enum_iff_getElem?.mpr this
  have hconvV : ∀ q ∈ vS, q ∈ es'.enum := by
    intro q hq
    have hq1 : q.1 ∈ sV.map Prod.fst := by rw [← hVfst]; exact List.mem_map.mpr ⟨q, hq, rfl⟩
    obtain ⟨p, hp, hp1⟩ := List.mem_map.mp hq1
    have hpenum : p ∈ edges.enum := by
      have := hVperm.subset hp
      rw [hfVdef, List.mem_filter] at this
      exact this.1
    have hpget : edges[p.1]? = some p.2 := List.mem_enum_iff_getElem?.mp hpenum
    have hlook : (hS ++ vS).lookup q.1 = some q.2 :=
      lookup_nodup hnodup (List.mem_append_right _ hq)
    have : es'[q.1]? = some q.2 := by
      rw [hes'eq, List.getElem?_map, List.getElem?_enum, ← hp1, hpget]
      simp only [Option.map_some', Option.some.injEq]
      rw [hp1, hlook, Option.getD_some]
    exact List.mem_enum_iff_getElem?.mpr this
  -- the horizontal (resp. vertical) entries of es'.enum are the hS (vS) entries
  have hfiltH : ∀ p, p ∈ es'.enum.filter (fun p => p.2.is_horizontal) ↔ p ∈ hS := by
    intro p
    constructor
    · intro hp
      rw [List.mem_filter] at hp
      rcases hchar p.1 p.2 hp.1 with ⟨q, hq, hq1, hq2⟩ | ⟨q, hq, hq1, hq2⟩
      · have : q = p := Prod.ext hq1 hq2
        exact this ▸ hq
      · exfalso
        have hqo := hVori q hq
        rw [hq2] at hqo
        rw [is_horizontal_iff.mp hp.2] at hqo
        cases hqo
    · intro hq
      rw [List.mem_filter]
      exact ⟨hconvH p hq, is_horizontal_iff.mpr (hHori p hq)⟩
  have hfiltV : ∀ p, p ∈ es'.enum.filter (fun p => p.2.is_vertical) ↔ p ∈ vS := by
    intro p
    constructor
    · intro hp
      rw [List.mem_filter] at hp
      rcases hchar p.1 p.2 hp.1 with ⟨q, hq, hq1, hq2⟩ | ⟨q, hq, hq1, hq2⟩
      · exfalso
        have hqo := hHori q hq
        rw [hq2] at hqo
        rw [is_vertical_iff.mp hp.2] at hqo
        cases hqo
      · have : q = p := Prod.ext hq1 hq2
        exact this ▸ hq
    · intro hq
      rw [List.mem_filter]
      exact ⟨hconvV p hq, is_vertical_iff.mpr (hVori p hq)⟩
  -- the second pass snaps nothing
  rw [snap_edges_eq x_tol y_tol es']
  have hH2perm := List.perm_insertionSort (fun a b : Nat × Edge => a.2.top ≤ b.2.top)
    (es'.enum.filter fun p => p.2.is_horizontal)
  have hV2perm := List.perm_insertionSort (fun a b : Nat × Edge => a.2.x0 ≤ b.2.x0)
    (es'.enum.filter fun p => p.2.is_vertical)
  have hH2mem : ∀ p ∈ (es'.enum.filter fun p => p.2.is_horizontal).insertionSort
      (fun a b => a.2.top ≤ b.2.top), p ∈ hS :=
    fun p hp => (hfiltH p).mp (hH2perm.subset hp)
  have hV2mem : ∀ p ∈ (es'.enum.filter fun p => p.2.is_vertical).insertionSort
      (fun a b => a.2.x0 ≤ b.2.x0), p ∈ vS :=
    fun p hp => (hfiltV p).mp (hV2perm.subset hp)
  have hidH : snapRun y_tol (fun e => e.top) snapUpdH
      ((es'.enum.filter fun p => p.2.is_horizontal).insertionSort
        (fun a b => a.2.top ≤ b.2.top)) =
      (es'.enum.filter fun p => p.2.is_horizontal).insertionSort
        (fun a b => a.2.top ≤ b.2.top) := by
    apply @snapRun_id y_tol (fun e => e.top) snapUpdH (fun e => e.top = e.bottom)
      (fun _ _ => rfl)
    · intro e he
      obtain ⟨ex0, etop, ex1, ebottom, ew, eor⟩ := e
      simp only at he
      subst he
      rfl
    · exact fun p hp => hHflat p (hH2mem p hp)
    · apply hHsep.mono
      intro x hx
      obtain ⟨p, hp, rfl⟩ := List.mem_map.mp hx
      exact List.mem_map.mpr ⟨p, hH2mem p hp, rfl⟩
  have hidV : snapRun x_tol (fun e => e.x0) snapUpdV
      ((es'.enum.filter fun p => p.2.is_vertical).insertionSort
        (fun a b => a.2.x0 ≤ b.2.x0)) =
      (es'.enum.filter fun p => p.2.is_vertical).insertionSort
        (fun a b => a.2.x0 ≤ b.2.x0) := by
    apply @snapRun_id x_tol (fun e => e.x0) snapUpdV (fun e => e.x0 = e.x1)
      (fun _ _ => rfl)
    · intro e he
      obtain ⟨ex0, etop, ex1, ebottom, ew, eor⟩ := e
      simp only at he
      subst he
      rfl
    · exact fun p hp => hVflat p (hV2mem p hp)
    · apply hVsep.mono
      intro x hx
      obtain ⟨p, hp, rfl⟩ := List.mem_map.mp hx
      exact List.mem_map.mpr ⟨p, hV2mem p hp, rfl⟩
  rw [hidH, hidV]
  -- the final write-back reproduces es'
  have hmapid : ∀ p ∈ es'.enum,
      ((((es'.enum.filter fun p => p.2.is_horizontal).insertionSort
          (fun a b => a.2.top ≤ b.2.top)) ++
        ((es'.enum.filter fun p => p.2.is_vertical).insertionSort
          (fun a b => a.2.x0 ≤ b.2.x0))).lookup p.1).getD p.2 = p.2 := by
    intro p hp
    apply lookup_sub_enum
    · intro q hq
      rcases List.mem_append.mp hq with hq | hq
      · exact List.mem_filter.mp (hH2perm.subset hq) |>.1
      · exact List.mem_filter.mp (hV2perm.subset hq) |>.1
    · exact hp
  calc es'.enum.map (fun p =>
        ((((es'.enum.filter fun p => p.2.is_horizontal).insertionSort
            (fun a b => a.2.top ≤ b.2.top)) ++
          ((es'.enum.filter fun p => p.2.is_vertical).insertionSort
            (fun a b => a.2.x0 ≤ b.2.x0))).lookup p.1).getD p.2)
      = es'.enum.map Prod.snd := List.map_congr_left hmapid
    _ = es' := List.enum_map_snd es'

end PDF

namespace PDF

unseal Rat.add Rat.mul Rat.sub Rat.inv in
/-- Witness for snapping idempotence on a concrete flat edge set. -/
theorem c9_snap_idempotent_flat_witness :
    flatEdges [Edge.horizontal 0 10 0 1, Edge.horizontal 0 10 2 1, Edge.vertical 4 0 9 1] ∧
      snap_edges 3 3 (snap_edges 3 3
          [Edge.horizontal 0 10 0 1, Edge.horizontal 0 10 2 1, Edge.vertical 4 0 9 1]) =
        snap_edges 3 3
          [Edge.horizontal 0 10 0 1, Edge.horizontal 0 10 2 1, Edge.vertical 4 0 9 1] :=
  ⟨by unfold flatEdges; decide, c9_snap_idempotent_flat 3 3 (by unfold flatEdges; decide)⟩

end PDF

namespace Interp

/-- On the self-referential Form XObject, interpretation exhausts every
recursion budget: the `Do` chain never bottoms out. -/
theorem c7_key : ∀ (fuel : Nat) (enc : Nat → Option Uni) (st : InterpState),
    interpOps enc
      [(1, { subtype := "Form", matrix := none,
             resources := some { xobjects := [("X", 1)], fonts := [], ext_gstates := [] },
             content := [Op.Do "X"] })]
      fuel st [Op.Do "X"]
      (some { xobjects := [("X", 1)], fonts := [], ext_gstates := [] }) = none := by
  intro fuel
  induction fuel with
  | zero =>
    intro enc st
    rw [interpOps.eq_def]
    dsimp only
    rw [show interpOp enc
      [(1, { subtype := "Form", matrix := none,
             resources := some { xobjects := [("X", 1)], fonts := [], ext_gstates := [] },
             content := [Op.Do "X"] })]
      0 st (Op.Do "X")
      (some { xobjects := [("X", 1)], fonts := [], ext_gstates := [] }) = none from by
        rw [interpOp.eq_def]; rfl]
  | succ n ih =>
    intro enc st
    rw [interpOps.eq_def]
    dsimp only
    rw [interpOp.eq_def]
    simp only [List.lookup]
    norm_num
    simp [ih]

/-- The Form-XObject recursion of `op_do_xobject` has no depth cap: on the
self-referential Form cycle, page processing exceeds every depth bound
(`none` means the Rust recursion is still descending past that depth),
instead of treating the `Do` as skipped at some bounded depth. -/
theorem c7_do_unbounded_recursion (fuel : Nat) (enc : Nat → Option Uni) :
    process_page enc c7store fuel 792 0 [Op.Do "X"] (some c7res) = none :=
  c7_key fuel enc (load_fonts (InterpState.new 792 0) (some c7res))

end Interp

namespace Interp

/-- A fold whose step preserves the graphics stack preserves it globally. -/
theorem gstack_foldl {α : Type} (f : InterpState → α → InterpState)
    (hf : ∀ s a, (f s a).graphics_stack = s.graphics_stack) :
    ∀ (l : List α) (s : InterpState), (l.foldl f s).graphics_stack = s.graphics_stack := by
  intro l
  induction l with
  | nil => intro s; rfl
  | cons a l ih => intro s; rw [List.foldl_cons, ih, hf]

/-- A fold over a product accumulator whose step preserves the graphics
stack of the first component preserves it globally. -/
theorem gstack_foldl2 {α β : Type _} (f : InterpState × β → α → InterpState × β)
    (hf : ∀ s a, (f s a).1.graphics_stack = s.1.graphics_stack) :
    ∀ (l : List α) (s : InterpState × β),
      ((l.foldl f s).1).graphics_stack = s.1.graphics_stack := by
  intro l
  induction l with
  | nil => intro s; rfl
  | cons a l ih => intro s; rw [List.foldl_cons, ih, hf]

/-- `render_text` never touches the graphics stack. -/
theorem gstack_render_text (enc : Nat → Option Uni) (st : InterpState) (bytes : List Nat) :
    (render_text enc st bytes).graphics_stack = st.graphics_stack := by
  unfold render_text
  dsimp only
  apply gstack_foldl
  intro s ct
  rfl

/-- One `TJ` item never touches the graphics stack. -/
theorem gstack_tjStep (enc : Nat → Option Uni) (st : InterpState) (item : TJItem) :
    (tjStep enc st item).graphics_stack = st.graphics_stack := by
  cases item with
  | str bytes => exact gstack_render_text enc st bytes
  | num v => rfl

/-- The `TJ` item loop never touches the graphics stack. -/
theorem gstack_tj (enc : Nat → Option Uni) (items : List TJItem) (st : InterpState) :
    (items.foldl (tjStep enc) st).graphics_stack = st.graphics_stack :=
  gstack_foldl _ (fun s it => gstack_tjStep enc s it) items st

/-- One path-replay step never touches the graphics stack. -/
theorem gstack_pathStep (stroke fill : Bool) (ctm : Matrix)
    (acc : InterpState × (ℝ × ℝ) × (ℝ × ℝ)) (seg : PathSegment) :
    (pathStep stroke fill ctm acc seg).1.graphics_stack = acc.1.graphics_stack := by
  cases seg <;> dsimp only [pathStep] <;> try rfl
  all_goals split <;> rfl

/-- Path replay never touches the graphics stack. -/
theorem gstack_extract_path (st : InterpState) (stroke fill : Bool) :
    (extract_path_objects st stroke fill).graphics_stack = st.graphics_stack := by
  unfold extract_path_objects
  exact gstack_foldl2 _ (fun s seg => gstack_pathStep stroke fill st.gs.ctm s seg) st.path _

/-- Stroking never touches the graphics stack. -/
theorem gstack_op_stroke (st : InterpState) :
    (op_stroke st).graphics_stack = st.graphics_stack := by
  unfold op_stroke
  exact gstack_extract_path st true false

/-- Filling never touches the graphics stack. -/
theorem gstack_op_fill (st : InterpState) :
    (op_fill st).graphics_stack = st.graphics_stack := by
  unfold op_fill
  exact gstack_extract_path st false true

/-- The `gs` operator never touches the graphics stack. -/
theorem gstack_set_graphics_state (st : InterpState) (name : String)
    (res : Option Resources) :
    (op_set_graphics_state st name res).graphics_stack = st.graphics_stack := by
  cases res with
  | none => rfl
  | some r =>
    dsimp only [op_set_graphics_state]
    cases hl : r.ext_gstates.lookup name with
    | none => rfl
    | some egs =>
      obtain ⟨lw, lc, lj, font⟩ := egs
      cases lw <;> cases lc <;> cases lj <;> cases font <;> rfl

end Interp

namespace Interp

set_option maxHeartbeats 1000000 in
/-- The graphics-stack length effect of one operator other than `Do`:
`q` pushes one frame, `Q` pops one frame unless the stack is empty, and
every other operator leaves the stack untouched. -/
theorem gstack_interpOp (enc : Nat → Option Uni) (store : List (Nat × XStream))
    (fuel : Nat) (st : InterpState) (op : Op) (res : Option Resources)
    (st' : InterpState) (hnd : op.isDo = false)
    (h : interpOp enc store fuel st op res = some st') :
    st'.graphics_stack.length =
      (if op.isq then st.graphics_stack.length + 1
       else if op.isQ then st.graphics_stack.length - 1
       else st.graphics_stack.length) := by
  cases op
  case Do name => simp [Op.isDo] at hnd
  case q =>
    rw [interpOp.eq_def] at h
    dsimp only at h
    injection h with h
    subst h
    simp [Op.isq, op_save_state]
  case Q =>
    rw [interpOp.eq_def] at h
    dsimp only at h
    injection h with h
    subst h
    cases hs : st.graphics_stack with
    | nil => simp [Op.isq, Op.isQ, op_restore_state, hs]
    | cons g rest => simp [Op.isq, Op.isQ, op_restore_state, hs]
  case v x2 y2 x3 y3 =>
    rw [interpOp.eq_def] at h
    dsimp only at h
    rcases hc : st.current_point with _ | ⟨cx, cy⟩ <;> rw [hc] at h <;>
      dsimp only at h <;> injection h with h <;> subst h <;> simp [Op.isq, Op.isQ]
  all_goals
    rw [interpOp.eq_def] at h
    dsimp only at h
    injection h with h
    subst h
    simp [Op.isq, Op.isQ, op_concat_matrix, op_begin_text, op_text_move,
      op_text_next_line, adjust_text_position, op_path_close, op_end_path,
      gstack_set_graphics_state, gstack_render_text, gstack_tj,
      gstack_op_stroke, gstack_op_fill]

end Interp

namespace Interp

/-- Over a `Do`-free stream, the interpreter's graphics-stack length
follows `stackLenRun`. -/
theorem gstack_interpOps_run (enc : Nat → Option Uni) (store : List (Nat × XStream))
    (res : Option Resources) :
    ∀ (ops : List Op) (fuel : Nat) (st st' : InterpState),
      (∀ op ∈ ops, op.isDo = false) →
      interpOps enc store fuel st ops res = some st' →
      st'.graphics_stack.length = stackLenRun st.graphics_stack.length ops := by
  intro ops
  induction ops with
  | nil =>
    intro fuel st st' _ h
    rw [interpOps.eq_def] at h
    dsimp only at h
    injection h with h
    subst h
    rfl
  | cons op ops ih =>
    intro fuel st st' hnd h
    rw [interpOps.eq_def] at h
    dsimp only at h
    rcases h1 : interpOp enc store fuel st op res with _ | st1
    · rw [h1] at h
      simp at h
    · rw [h1] at h
      dsimp only at h
      have hop := gstack_interpOp enc store fuel st op res st1
        (hnd op (List.mem_cons_self op ops)) h1
      have hrest := ih fuel st1 st' (fun o ho => hnd o (List.mem_cons_of_mem op ho)) h
      rw [hrest, hop]
      simp only [stackLenRun]

/-- Under the no-underflow prefix condition, `stackLenRun` computes the
net `q`/`Q` balance without `Q` ever hitting an empty stack. -/
theorem stackLenRun_balanced :
    ∀ (ops : List Op) (m : Nat),
      (∀ k, ((ops.take k).countP Op.isQ) ≤ m + (ops.take k).countP Op.isq) →
      stackLenRun m ops = m + ops.countP Op.isq - ops.countP Op.isQ := by
  intro ops
  induction ops with
  | nil => intro m _; simp [stackLenRun]
  | cons op ops ih =>
    intro m hpre
    have hcount : ∀ (p : Op → Bool) (k : Nat),
        ((op :: ops).take (k + 1)).countP p =
          (ops.take k).countP p + (if p op = true then 1 else 0) := by
      intro p k
      rw [List.take_succ_cons, List.countP_cons]
    have hcountall : ∀ (p : Op → Bool),
        (op :: ops).countP p = ops.countP p + (if p op = true then 1 else 0) := by
      intro p
      rw [List.countP_cons]
    simp only [stackLenRun]
    by_cases hq : op.isq = true
    · have hnQ : Op.isQ op ≠ true := by
        cases op <;> simp [Op.isq, Op.isQ] at hq ⊢
      rw [if_pos hq]
      rw [ih (m + 1) ?_]
      · rw [hcountall Op.isq, hcountall Op.isQ, if_pos hq, if_neg hnQ]
        omega
      · intro k
        have hk := hpre (k + 1)
        rw [hcount Op.isQ k, hcount Op.isq k, if_pos hq, if_neg hnQ] at hk
        omega
    · rw [if_neg hq]
      by_cases hQ : op.isQ = true
      · rw [if_pos hQ]
        have hm : 1 ≤ m := by
          have hk := hpre 1
          rw [show (1 : Nat) = 0 + 1 from rfl, hcount Op.isQ 0, hcount Op.isq 0,
            if_pos hQ, if_neg hq] at hk
          simp only [List.take_zero, List.countP_nil] at hk
          omega
        rw [ih (m - 1) ?_]
        · rw [hcountall Op.isq, hcountall Op.isQ, if_pos hQ, if_neg hq]
          omega
        · intro k
          have hk := hpre (k + 1)
          rw [hcount Op.isQ k, hcount Op.isq k, if_pos hQ, if_neg hq] at hk
          omega
      · rw [if_neg hQ]
        rw [ih m ?_]
        · rw [hcountall Op.isq, hcountall Op.isQ, if_neg hq, if_neg hQ]
          omega
        · intro k
          have hk := hpre (k + 1)
          rw [hcount Op.isQ k, hcount Op.isq k, if_neg hq, if_neg hQ] at hk
          omega

end Interp

namespace Interp

/-- C8: `Q` on an empty graphics-state stack is a no-op — the live
graphics state and the stack are left unchanged with no underflow — and
over any `Do`-free stream whose `q`/`Q` operators are balanced (no prefix
has more `Q` than `q`, equal totals), interpretation returns the
graphics-stack length to its prior value. -/
theorem c8_restore_discipline :
    (∀ st : InterpState, st.graphics_stack = [] → op_restore_state st = st) ∧
    (∀ (enc : Nat → Option Uni) (store : List (Nat × XStream)) (fuel : Nat)
        (res : Option Resources) (ops : List Op) (st st' : InterpState),
      (∀ op ∈ ops, op.isDo = false) →
      (∀ k, ((ops.take k).countP Op.isQ) ≤ (ops.take k).countP Op.isq) →
      ops.countP Op.isq = ops.countP Op.isQ →
      interpOps enc store fuel st ops res = some st' →
      st'.graphics_stack.length = st.graphics_stack.length) := by
  constructor
  · intro st h
    unfold op_restore_state
    rw [h]
  · intro enc store fuel res ops st st' hnd hpre hbal hrun
    have h1 := gstack_interpOps_run enc store res ops fuel st st' hnd hrun
    have h2 := stackLenRun_balanced ops st.graphics_stack.length
      (fun k => le_trans (hpre k) (Nat.le_add_left _ _))
    omega

/-- Witness: `Q` on the fresh (empty-stack) state is the identity, and the
balanced stream `q Q` returns the stack length to its prior value 0. -/
theorem c8_restore_discipline_witness :
    (op_restore_state (InterpState.new 100 0) = InterpState.new 100 0) ∧
    ∃ st' : InterpState,
      interpOps (fun _ => none) [] 5 (InterpState.new 100 0) [Op.q, Op.Q] none = some st' ∧
        st'.graphics_stack.length = (InterpState.new 100 0).graphics_stack.length := by
  have hrun : interpOps (fun _ => none) [] 5 (InterpState.new 100 0) [Op.q, Op.Q] none =
      some (op_restore_state (op_save_state (InterpState.new 100 0))) := by
    rw [interpOps.eq_def]
    dsimp only
    rw [interpOp.eq_def]
    dsimp only
    rw [interpOps.eq_def]
    dsimp only
    rw [interpOp.eq_def]
    dsimp only
    rw [interpOps.eq_def]
  refine ⟨c8_restore_discipline.1 (InterpState.new 100 0) rfl,
    op_restore_state (op_save_state (InterpState.new 100 0)), hrun,
    c8_restore_discipline.2 (fun _ => none) [] 5 none [Op.q, Op.Q] _ _ ?_ ?_ ?_ hrun⟩
  · intro op hop
    simp only [List.mem_cons, List.not_mem_nil, or_false] at hop
    rcases hop with rfl | rfl <;> rfl
  · intro k
    rcases k with _ | _ | k
    · decide
    · decide
    · simp only [List.take_succ_cons, List.take_nil, List.countP_cons, List.countP_nil]
      decide
  · rfl

end Interp

namespace Interp

/-- C4: on the path `0 0 m 5 0 l h` replayed while stroking, the closing
segment back to the subpath start is purely horizontal: the current point
differs from the subpath start by more than the 1e-6 tolerance, yet no
closing `Line` is emitted — only the explicit `l` line appears — because
the replay requires BOTH coordinate deltas to exceed the tolerance
instead of the two points merely differing. -/
theorem c4_closepath_tolerance :
    (extract_path_objects c4state true false).lines.map
        (fun l => (l.x0, l.y0, l.x1, l.y1)) = [((0 : ℝ), 100, 5, 100)] ∧
      |(5 : ℝ) - 0| > 1 / 1000000 := by
  constructor
  · norm_num [extract_path_objects, c4state, pathStep, add_line, to_page_coords,
      Matrix.transform_point, Matrix.identity, InterpState.new, GraphicsState.mkDefault,
      List.foldl_cons, List.foldl_nil]
  · norm_num

end Interp

namespace Interp

/-- C1: every glyph `Char` built by the interpreter's text renderer
satisfies `x0 = Trm.e`, `x1 = x0 + (widths[code]/1000)·effective_size·h`,
`bottom = page_height − Trm.f`, `top = bottom − effective_size`,
`doctop = top + doctop_offset`, `size = effective_size`, where
`Trm = FontMatrix·Tm·CTM` and `effective_size = sqrt(Trm.b² + Trm.d²)`,
and `upright` holds iff `|Trm.b| < 1e-6` and `|Trm.c| < 1e-6`; and the
glyph loop emits exactly this `Char`. -/
theorem c1_char_geometry (page_height doctop_offset : ℝ) (font_info : FontInfo)
    (ts : TextState) (gst : GraphicsState) (code : Nat) (text : String)
    (st : InterpState) :
    (renderGlyphChar page_height doctop_offset font_info ts gst code text).x0 =
        (glyphTrm ts gst).e ∧
    (renderGlyphChar page_height doctop_offset font_info ts gst code text).x1 =
        (renderGlyphChar page_height doctop_offset font_info ts gst code text).x0 +
          (font_info.char_width code / 1000) * (glyphTrm ts gst).font_size *
            (ts.horizontal_scaling / 100) ∧
    (renderGlyphChar page_height doctop_offset font_info ts gst code text).bottom =
        page_height - (glyphTrm ts gst).f ∧
    (renderGlyphChar page_height doctop_offset font_info ts gst code text).top =
        (renderGlyphChar page_height doctop_offset font_info ts gst code text).bottom -
          (glyphTrm ts gst).font_size ∧
    (renderGlyphChar page_height doctop_offset font_info ts gst code text).doctop =
        (renderGlyphChar page_height doctop_offset font_info ts gst code text).top +
          doctop_offset ∧
    (renderGlyphChar page_height doctop_offset font_info ts gst code text).size =
        (glyphTrm ts gst).font_size ∧
    (glyphTrm ts gst).font_size =
        Real.sqrt ((glyphTrm ts gst).b * (glyphTrm ts gst).b +
          (glyphTrm ts gst).d * (glyphTrm ts gst).d) ∧
    ((renderGlyphChar page_height doctop_offset font_info ts gst code text).upright ↔
        |(glyphTrm ts gst).b| < 1 / 1000000 ∧ |(glyphTrm ts gst).c| < 1 / 1000000) ∧
    (renderGlyph st font_info code text).chars =
        st.chars ++ [renderGlyphChar st.page_height st.doctop_offset font_info
          st.ts st.gs code text] :=
  ⟨rfl, rfl, rfl, rfl, rfl, rfl, rfl, Iff.rfl, rfl⟩

end Interp

namespace Interp

/-- A state predicate preserved by the step of a fold is preserved by the
fold. -/
theorem foldl_inv {α : Type} (P : InterpState → Prop) (f : InterpState → α → InterpState)
    (hf : ∀ s a, P s → P (f s a)) :
    ∀ (l : List α) (s : InterpState), P s → P (l.foldl f s) := by
  intro l
  induction l with
  | nil => intro s hs; exact hs
  | cons a l ih => intro s hs; exact ih _ (hf s a hs)

/-- A predicate on the first component of a product accumulator preserved
by the step of a fold is preserved by the fold. -/
theorem foldl_inv2 {α β : Type _} (P : InterpState → Prop)
    (f : InterpState × β → α → InterpState × β)
    (hf : ∀ s a, P s.1 → P ((f s a).1)) :
    ∀ (l : List α) (s : InterpState × β), P s.1 → P ((l.foldl f s).1) := by
  intro l
  induction l with
  | nil => intro s hs; exact hs
  | cons a l ih => intro s hs; exact ih _ (hf s a hs)

/-- Every bounding box computed by `Curve.bbox` is ordered. -/
theorem curve_bbox_ordered (c : Curve) :
    c.bbox.x0 ≤ c.bbox.x1 ∧ c.bbox.top ≤ c.bbox.bottom := by
  unfold Curve.bbox
  cases hp : c.points with
  | nil => exact ⟨le_refl 0, le_refl 0⟩
  | cons p ps =>
    have key : ∀ (qs : List (ℝ × ℝ)) (acc : RBBox), acc.x0 ≤ acc.x1 → acc.top ≤ acc.bottom →
        (qs.foldl (fun acc q =>
            ⟨min acc.x0 q.1, min acc.top q.2, max acc.x1 q.1, max acc.bottom q.2⟩) acc).x0 ≤
          (qs.foldl (fun acc q =>
            ⟨min acc.x0 q.1, min acc.top q.2, max acc.x1 q.1, max acc.bottom q.2⟩) acc).x1 ∧
        (qs.foldl (fun acc q =>
            ⟨min acc.x0 q.1, min acc.top q.2, max acc.x1 q.1, max acc.bottom q.2⟩) acc).top ≤
          (qs.foldl (fun acc q =>
            ⟨min acc.x0 q.1, min acc.top q.2, max acc.x1 q.1, max acc.bottom q.2⟩) acc).bottom := by
      intro qs
      induction qs with
      | nil => intro acc h1 h2; exact ⟨h1, h2⟩
      | cons q qs ih =>
        intro acc h1 h2
        exact ih _ (le_trans (min_le_right _ _) (le_max_right _ _))
          (le_trans (min_le_right _ _) (le_max_right _ _))
    exact key ps ⟨p.1, p.2, p.1, p.2⟩ le_rfl le_rfl

/-- `add_line` preserves the amended invariant: the appended line has
`top = min ≤ max = bottom`. -/
theorem amended_add_line (st : InterpState) (x0 y0 x1 y1 : ℝ)
    (hst : amendedInvariant st) : amendedInvariant (add_line st x0 y0 x1 y1) := by
  obtain ⟨hc, hl, hr, hcu⟩ := hst
  refine ⟨hc, ?_, hr, hcu⟩
  intro ln hln
  rcases List.mem_append.mp hln with h | h
  · exact hl ln h
  · rw [List.mem_singleton] at h
    subst h
    exact min_le_max

/-- One glyph emission preserves the amended invariant: the new char has
`size = sqrt(Trm.b² + Trm.d²) ≥ 0` and `top = bottom − size ≤ bottom`. -/
theorem amended_renderGlyph (st : InterpState) (fi : FontInfo) (code : Nat) (text : String)
    (hst : amendedInvariant st) : amendedInvariant (renderGlyph st fi code text) := by
  obtain ⟨hc, hl, hr, hcu⟩ := hst
  refine ⟨?_, hl, hr, hcu⟩
  intro ch hch
  rcases List.mem_append.mp hch with h | h
  · exact hc ch h
  · rw [List.mem_singleton] at h
    subst h
    have hsize : (renderGlyphChar st.page_height st.doctop_offset fi st.ts st.gs
        code text).size = Real.sqrt
          ((glyphTrm st.ts st.gs).b * (glyphTrm st.ts st.gs).b +
            (glyphTrm st.ts st.gs).d * (glyphTrm st.ts st.gs).d) := rfl
    constructor
    · show (renderGlyphChar st.page_height st.doctop_offset fi st.ts st.gs code text).bottom -
          (renderGlyphChar st.page_height st.doctop_offset fi st.ts st.gs code text).size ≤
        (renderGlyphChar st.page_height st.doctop_offset fi st.ts st.gs code text).bottom
      exact sub_le_self _ (hsize ▸ Real.sqrt_nonneg _)
    · exact hsize ▸ Real.sqrt_nonneg _

/-- `render_text` preserves the amended invariant. -/
theorem amended_render_text (enc : Nat → Option Uni) (st : InterpState) (bytes : List Nat)
    (hst : amendedInvariant st) : amendedInvariant (render_text enc st bytes) := by
  unfold render_text
  dsimp only
  exact foldl_inv amendedInvariant _ (fun s ct hs => amended_renderGlyph s _ ct.1 ct.2 hs) _ st hst

/-- One `TJ` item preserves the amended invariant. -/
theorem amended_tjStep (enc : Nat → Option Uni) (st : InterpState) (item : TJItem)
    (hst : amendedInvariant st) : amendedInvariant (tjStep enc st item) := by
  cases item with
  | str bytes => exact amended_render_text enc st bytes hst
  | num v => exact hst

/-- The `TJ` loop preserves the amended invariant. -/
theorem amended_tj (enc : Nat → Option Uni) (items : List TJItem) (st : InterpState)
    (hst : amendedInvariant st) : amendedInvariant (items.foldl (tjStep enc) st) :=
  foldl_inv amendedInvariant _ (fun s it hs => amended_tjStep enc s it hs) items st hst

/-- One path-replay step preserves the amended invariant: new lines are
min/max-ordered, new rects are min/max-ordered, new curve bboxes are
ordered by `curve_bbox_ordered`. -/
theorem amended_pathStep (stroke fill : Bool) (ctm : Matrix)
    (acc : InterpState × (ℝ × ℝ) × (ℝ × ℝ)) (seg : PathSegment)
    (hst : amendedInvariant acc.1) :
    amendedInvariant (pathStep stroke fill ctm acc seg).1 := by
  cases seg with
  | MoveTo x yc => exact hst
  | LineTo x yc =>
    dsimp only [pathStep]
    split
    · exact amended_add_line _ _ _ _ _ hst
    · exact hst
  | CurveTo x1 y1 x2 y2 x3 y3 =>
    obtain ⟨hc, hl, hr, hcu⟩ := hst
    refine ⟨hc, hl, hr, ?_⟩
    intro cu hcuM
    rcases List.mem_append.mp hcuM with h | h
    · exact hcu cu h
    · rw [List.mem_singleton] at h
      subst h
      exact curve_bbox_ordered _
  | ClosePath =>
    dsimp only [pathStep]
    split
    · exact amended_add_line _ _ _ _ _ hst
    · exact hst
  | Rect x yc wd ht =>
    obtain ⟨hc, hl, hr, hcu⟩ := hst
    refine ⟨hc, hl, ?_, hcu⟩
    intro r hrM
    rcases List.mem_append.mp hrM with h | h
    · exact hr r h
    · rw [List.mem_singleton] at h
      subst h
      exact ⟨min_le_max, sub_le_sub_left min_le_max _⟩

/-- Path replay preserves the amended invariant. -/
theorem amended_extract_path (st : InterpState) (stroke fill : Bool)
    (hst : amendedInvariant st) : amendedInvariant (extract_path_objects st stroke fill) := by
  unfold extract_path_objects
  exact foldl_inv2 amendedInvariant _
    (fun s seg hs => amended_pathStep stroke fill st.gs.ctm s seg hs) st.path _ hst

/-- Stroking preserves the amended invariant. -/
theorem amended_op_stroke (st : InterpState) (hst : amendedInvariant st) :
    amendedInvariant (op_stroke st) :=
  amended_extract_path st true false hst

/-- Filling preserves the amended invariant. -/
theorem amended_op_fill (st : InterpState) (hst : amendedInvariant st) :
    amendedInvariant (op_fill st) :=
  amended_extract_path st false true hst

/-- Restoring the graphics state preserves the amended invariant. -/
theorem amended_restore (st : InterpState) (hst : amendedInvariant st) :
    amendedInvariant (op_restore_state st) := by
  unfold op_restore_state
  cases hg : st.graphics_stack with
  | nil => exact hst
  | cons g rest => exact hst

/-- The `gs` operator preserves the amended invariant. -/
theorem amended_set_graphics_state (st : InterpState) (name : String)
    (res : Option Resources) (hst : amendedInvariant st) :
    amendedInvariant (op_set_graphics_state st name res) := by
  cases res with
  | none => exact hst
  | some r =>
    dsimp only [op_set_graphics_state]
    cases hl : r.ext_gstates.lookup name with
    | none => exact hst
    | some egs =>
      obtain ⟨lw, lc, lj, font⟩ := egs
      cases lw <;> cases lc <;> cases lj <;> cases font <;> exact hst

/-- Loading fonts preserves the amended invariant. -/
theorem amended_load_fonts (st : InterpState) (res : Option Resources)
    (hst : amendedInvariant st) : amendedInvariant (load_fonts st res) := by
  cases res with
  | none => exact hst
  | some r => exact hst

end Interp

namespace Interp

set_option maxHeartbeats 1000000 in
/-- Every operator other than `Do` preserves the amended invariant. -/
theorem amended_interpOp_nonDo (enc : Nat → Option Uni) (store : List (Nat × XStream))
    (fuel : Nat) (st : InterpState) (op : Op) (res : Option Resources)
    (st' : InterpState) (hnd : op.isDo = false) (hst : amendedInvariant st)
    (h : interpOp enc store fuel st op res = some st') : amendedInvariant st' := by
  cases op
  case Do name => simp [Op.isDo] at hnd
  case v x2 y2 x3 y3 =>
    rw [interpOp.eq_def] at h
    dsimp only at h
    rcases hc : st.current_point with _ | ⟨cx, cy⟩ <;> rw [hc] at h <;>
      dsimp only at h <;> injection h with h <;> subst h <;> exact hst
  all_goals
    rw [interpOp.eq_def] at h
    dsimp only at h
    injection h with h
    subst h
    first
      | exact hst
      | exact amended_restore _ hst
      | exact amended_set_graphics_state _ _ _ hst
      | exact amended_render_text _ _ _ hst
      | exact amended_tj _ _ _ hst
      | exact amended_op_stroke _ hst
      | exact amended_op_fill _ hst
      | exact amended_op_stroke _ (amended_op_fill _ hst)

end Interp

namespace Interp

/-- At every recursion budget, one operator and a whole stream preserve
the amended invariant. -/
theorem amended_fuel (enc : Nat → Option Uni) (store : List (Nat × XStream)) :
    ∀ fuel : Nat,
      (∀ (st : InterpState) (op : Op) (res : Option Resources) (st' : InterpState),
        amendedInvariant st → interpOp enc store fuel st op res = some st' →
        amendedInvariant st') ∧
      (∀ (ops : List Op) (st : InterpState) (res : Option Resources) (st' : InterpState),
        amendedInvariant st → interpOps enc store fuel st ops res = some st' →
        amendedInvariant st') := by
  have hops : ∀ fuel : Nat,
      (∀ (st : InterpState) (op : Op) (res : Option Resources) (st' : InterpState),
        amendedInvariant st → interpOp enc store fuel st op res = some st' →
        amendedInvariant st') →
      (∀ (ops : List Op) (st : InterpState) (res : Option Resources) (st' : InterpState),
        amendedInvariant st → interpOps enc store fuel st ops res = some st' →
        amendedInvariant st') := by
    intro fuel hop ops
    induction ops with
    | nil =>
      intro st res st' hst h
      rw [interpOps.eq_def] at h
      dsimp only at h
      injection h with h
      subst h
      exact hst
    | cons op ops ihops =>
      intro st res st' hst h
      rw [interpOps.eq_def] at h
      dsimp only at h
      rcases h1 : interpOp enc store fuel st op res with _ | st1
      · rw [h1] at h
        simp at h
      · rw [h1] at h
        dsimp only at h
        exact ihops st1 res st' (hop st op res st1 hst h1) h
  intro fuel
  induction fuel with
  | zero =>
    have hop : ∀ (st : InterpState) (op : Op) (res : Option Resources) (st' : InterpState),
        amendedInvariant st → interpOp enc store 0 st op res = some st' →
        amendedInvariant st' := by
      intro st op res st' hst h
      cases hdo : op.isDo with
      | false => exact amended_interpOp_nonDo enc store 0 st op res st' hdo hst h
      | true =>
        cases op <;> simp [Op.isDo] at hdo
        rename_i name
        rw [interpOp.eq_def] at h
        dsimp only at h
        rcases res with _ | r
        · dsimp only at h
          injection h with h
          subst h
          exact hst
        · dsimp only at h
          rcases hx : List.lookup name r.xobjects with _ | xid
          · rw [hx] at h
            dsimp only at h
            injection h with h
            subst h
            exact hst
          · rw [hx] at h
            dsimp only at h
            rcases hs : List.lookup xid store with _ | stream
            · rw [hs] at h
              dsimp only at h
              injection h with h
              subst h
              exact hst
            · rw [hs] at h
              rcases stream with ⟨sub, mtx, sres, cont⟩
              dsimp only at h
              split at h
              · simp at h
              · injection h with h
                subst h
                exact hst
    exact ⟨hop, hops 0 hop⟩
  | succ n ih =>
    have hop : ∀ (st : InterpState) (op : Op) (res : Option Resources) (st' : InterpState),
        amendedInvariant st → interpOp enc store (n + 1) st op res = some st' →
        amendedInvariant st' := by
      intro st op res st' hst h
      cases hdo : op.isDo with
      | false => exact amended_interpOp_nonDo enc store (n + 1) st op res st' hdo hst h
      | true =>
        cases op <;> simp [Op.isDo] at hdo
        rename_i name
        rw [interpOp.eq_def] at h
        dsimp only at h
        rcases res with _ | r
        · dsimp only at h
          injection h with h
          subst h
          exact hst
        · dsimp only at h
          rcases hx : List.lookup name r.xobjects with _ | xid
          · rw [hx] at h
            dsimp only at h
            injection h with h
            subst h
            exact hst
          · rw [hx] at h
            dsimp only at h
            rcases hs : List.lookup xid store with _ | stream
            · rw [hs] at h
              dsimp only at h
              injection h with h
              subst h
              exact hst
            · rw [hs] at h
              rcases stream with ⟨sub, mtx, sres, cont⟩
              dsimp only at h
              split at h
              · rcases mtx with _ | mx <;> dsimp only at h <;> split at h
                · rename_i st1 hrun
                  injection h with h
                  subst h
                  refine amended_restore _ (ih.2 cont _ _ st1 ?_ hrun)
                  exact amended_load_fonts _ _ hst
                · simp at h
                · rename_i st1 hrun
                  injection h with h
                  subst h
                  refine amended_restore _ (ih.2 cont _ _ st1 ?_ hrun)
                  exact amended_load_fonts _ _ hst
                · simp at h
              · injection h with h
                subst h
                exact hst
    exact ⟨hop, hops (n + 1) hop⟩

end Interp

namespace Interp

/-- C3 is false as frozen: the interpreter produces a page whose stroked
line runs right-to-left (`5 0 m 0 0 l S`), so the emitted `Line` has
`x0 = 5 > x1 = 0`, violating `x0 ≤ x1` (the code keeps line endpoints in
draw order; chars can likewise get `size = 0` under `Tf 0` and `x1 < x0`
under negative horizontal scaling). -/
theorem c3_counterexample :
    ∃ st' : InterpState,
      process_page (fun _ => none) [] 1 100 0 [Op.m 5 0, Op.l 0 0, Op.S] none = some st' ∧
        ¬ claimedInvariant st' := by
  have hrun : process_page (fun _ => none) [] 1 100 0 [Op.m 5 0, Op.l 0 0, Op.S] none =
      some (op_stroke { InterpState.new 100 0 with
        path := [PathSegment.MoveTo 5 0, PathSegment.LineTo 0 0]
        current_point := some (0, 0) }) := by
    unfold process_page
    rw [interpOps.eq_def]
    dsimp only
    rw [interpOp.eq_def]
    dsimp only
    rw [interpOps.eq_def]
    dsimp only
    rw [interpOp.eq_def]
    dsimp only
    rw [interpOps.eq_def]
    dsimp only
    rw [interpOp.eq_def]
    dsimp only
    rw [interpOps.eq_def]
    rfl
  refine ⟨_, hrun, ?_⟩
  intro hinv
  have hl := hinv.2.1
  norm_num [op_stroke, extract_path_objects, pathStep, add_line, to_page_coords,
    Matrix.transform_point, Matrix.identity, InterpState.new, GraphicsState.mkDefault,
    List.foldl_cons, List.foldl_nil] at hl

/-- C3 (amended): every page state the interpreter produces satisfies
`top ≤ bottom` on every char, line, rect and curve bounding box,
`x0 ≤ x1` on every rect and curve bounding box, and `size ≥ 0` on every
char (the claimed `x0 ≤ x1` for chars and lines and strict `size > 0`
are refuted by `c3_counterexample`). -/
theorem c3_amended_invariant (enc : Nat → Option Uni) (store : List (Nat × XStream))
    (fuel : Nat) (ph doff : ℝ) (ops : List Op) (res : Option Resources)
    (st' : InterpState)
    (h : process_page enc store fuel ph doff ops res = some st') :
    amendedInvariant st' := by
  have hstart : amendedInvariant (load_fonts (InterpState.new ph doff) res) := by
    refine amended_load_fonts _ _ ?_
    refine ⟨?_, ?_, ?_, ?_⟩ <;> intro x hx <;> exact absurd hx (List.not_mem_nil x)
  exact (amended_fuel enc store fuel).2 ops _ res st' hstart h

/-- Witness: the empty content stream yields a state satisfying the
amended invariant. -/
theorem c3_amended_invariant_witness :
    ∃ st' : InterpState,
      process_page (fun _ => none) [] 0 100 0 [] none = some st' ∧ amendedInvariant st' :=
  ⟨InterpState.new 100 0, by unfold process_page; rw [interpOps.eq_def]; rfl,
    c3_amended_invariant (fun _ => none) [] 0 100 0 [] none (InterpState.new 100 0)
      (by unfold process_page; rw [interpOps.eq_def]; rfl)⟩

end Interp
